import Mathlib

/-!
# stackmc: the paper cases driver (`old/examples/smcpaper/papercases.go`)

A shallow embedding of `GetRunDetails` and `main` of the paper-cases driver,
together with models of the fold partitioner and of the weighted fold
combination described in the specification.

Conventions of the embedding.

* Go `int` values are `Int`.  The only integer arithmetic of the driver is
  `realNumDim-1`, evaluated after `make([]float64, realNumDim)` has succeeded,
  hence on a non-negative value.
* A Go `float64` value is the rational it denotes, and every float operation of
  the driver rounds its exact result to binary64 (`roundBinary64`: nearest
  value with a 53-bit significand, ties to even).  The exponent range of
  binary64 plays no part: every magnitude the driver forms lies between
  `2^-1` and `2^80`.
* `make([]float64, n)` succeeds for `0 ≤ n ≤ 2^45` (memory permitting): the
  Go runtime of a 64-bit platform rejects a slice of more than `2^48` bytes
  with the panic "makeslice: len out of range".
* `log.Fatal` and run-time panics end the program; a function that can end the
  program returns `Except Abort _`.
* The packages `stackmc` and `stackmc/examples/smcpaper/helper` are external to
  the driver.  Their record types are declared with the fields the driver
  fills in, and their functions are parameters.
-/

namespace StackMC

/-! ## Data model -/

/-- How the program ends early: `log.Fatal(msg)` or a run-time panic. -/
inductive Abort where
  | fatal (msg : String)
  | panic (msg : String)
  deriving DecidableEq, Repr

/-- The `stackmc` distributions the driver constructs: `stackmc.NewUniform(mins, maxs)`,
`stackmc.NewIndedpendentGaussian(means, stds)` and `stackmc.NoFit{}`. -/
inductive Distribution where
  | uniform (mins maxs : List ℚ)
  | independentGaussian (means stds : List ℚ)
  | noFit
  deriving DecidableEq, Repr

/-- The fields of `stackmc.Polynomial` the driver sets; `FitDist` is `false` when omitted. -/
structure Polynomial where
  Order : Int
  Dist : Distribution
  FitDist : Bool
  deriving DecidableEq, Repr

/-- The target functions: `helper.Rosen` and the closure `artificialDomain`. -/
inductive TargetFunction where
  | Rosen
  | artificialDomain
  deriving DecidableEq, Repr

/-- The fields of `helper.StandardKFold`. -/
structure StandardKFold where
  Dist : Distribution
  Function : TargetFunction
  FitterGenerators : List (Unit → Polynomial)
  NumFolds : Int
  NumDim : Int

/-- The five results of `GetRunDetails`; `S` is the type of the sample sweep
returned by `helper.SampleRange`. -/
structure RunDetails (S : Type) where
  generator : StandardKFold
  sampSlice : S
  nRuns : Int
  ev : ℚ
  realNumDim : Int

/-! ## `GetRunDetails` -/

/-- The package variable `defaultNumRuns`. -/
def defaultNumRuns : Int := 2000

/-- Round to the nearest integer, ties to the even one. -/
def roundHalfEven (x : ℚ) : Int :=
  let f := ⌊x⌋
  if x - f < 1 / 2 then f
  else if 1 / 2 < x - f then f + 1
  else if f % 2 = 0 then f else f + 1

/-- The binary64 value nearest to `q`, ties to even: `q` is scaled by the power of two
that brings its magnitude into `[2^52, 2^53)`, rounded to an integer, and scaled back. -/
def roundBinary64 (q : ℚ) : ℚ :=
  if q = 0 then 0
  else
    let e : Int := Int.log 2 |q| - 52
    let m : Int := roundHalfEven (|q| / (2 : ℚ) ^ e)
    if q < 0 then -((m : ℚ) * (2 : ℚ) ^ e) else (m : ℚ) * (2 : ℚ) ^ e

/-- The Go conversion `float64(n)` of an `int`. -/
def float64 (n : Int) : ℚ := roundBinary64 (n : ℚ)

/-- The Go product `a * b` of two `float64` values. -/
def fmul (a b : ℚ) : ℚ := roundBinary64 (a * b)

/-- The longest `[]float64` the Go runtime allocates on a 64-bit platform: `2^48` bytes
(`maxAlloc`) of 8-byte elements. -/
def maxSliceLen : Int := 2 ^ 45

/-- Go `make([]float64, n)`: a zeroed slice, or the panic of `makeslice` for a negative
length and for a length beyond `maxSliceLen`. -/
def make (n : Int) : Except Abort (List ℚ) :=
  if n < 0 ∨ maxSliceLen < n then .error (.panic "makeslice: len out of range")
  else .ok (List.replicate n.toNat 0)

/-- Go `for i := range xs { body }` over the indices `0 .. len-1`. -/
def forRange {σ : Type} (len : Nat) (body : Nat → σ → σ) (init : σ) : σ :=
  (List.range len).foldl (fun s i => body i s) init

/-- The rationals that binary64 represents exactly: `m * 2^e` with a 53-bit significand
and an exponent in range. -/
def IsBinary64 (q : ℚ) : Prop :=
  ∃ m e : Int, |m| < 2 ^ 53 ∧ -1074 ≤ e ∧ e ≤ 971 ∧ q = (m : ℚ) * (2 : ℚ) ^ e

/-- The function `GetRunDetails(casename, nDimA)`.  `SampleRange` is
`helper.SampleRange`. -/
def GetRunDetails {S : Type} (SampleRange : Int → ℚ → ℚ → S)
    (casename : String) (nDimA : Int) : Except Abort (RunDetails S) :=
  match casename with
  | "rosenunif" => do
    let numSamp : Int := 8
    let realNumDim : Int := if nDimA = -1 then 10 else nDimA
    let minSamp : ℚ := fmul 3.5 (float64 realNumDim)
    let maxSamp : ℚ := fmul 7 (float64 realNumDim)
    let sampSlice := SampleRange numSamp minSamp maxSamp
    let mins ← make realNumDim
    let maxs ← make realNumDim
    let (mins, maxs) := forRange maxs.length
      (fun i s => (s.1.set i (-3), s.2.set i 3)) (mins, maxs)
    let dist := Distribution.uniform mins maxs
    let generator : StandardKFold :=
      { Dist := dist
        Function := .Rosen
        FitterGenerators := [fun _ => { Order := 3, Dist := dist, FitDist := false }]
        NumFolds := 10
        NumDim := realNumDim }
    let nRuns := defaultNumRuns
    let ev : ℚ := fmul 1924.0 (float64 (realNumDim - 1))
    pure ⟨generator, sampSlice, nRuns, ev, realNumDim⟩
  | "rosenfit" => do
    let numSamp : Int := 8
    let realNumDim : Int := if nDimA = -1 then 10 else nDimA
    let minSamp : ℚ := fmul 3.5 (float64 realNumDim)
    let maxSamp : ℚ := fmul 7 (float64 realNumDim)
    let sampSlice := SampleRange numSamp minSamp maxSamp
    let mins ← make realNumDim
    let maxs ← make realNumDim
    let (mins, maxs) := forRange maxs.length
      (fun i s => (s.1.set i (-3), s.2.set i 3)) (mins, maxs)
    let dist := Distribution.uniform mins maxs
    let generator : StandardKFold :=
      { Dist := dist
        Function := .Rosen
        FitterGenerators := [fun _ => { Order := 3, Dist := .noFit, FitDist := true }]
        NumFolds := 10
        NumDim := realNumDim }
    let nRuns := defaultNumRuns
    let ev : ℚ := fmul 1924.0 (float64 (realNumDim - 1))
    pure ⟨generator, sampSlice, nRuns, ev, realNumDim⟩
  | "rosengauss" => do
    let numSamp : Int := 8
    let realNumDim : Int := if nDimA = -1 then 10 else nDimA
    let minSamp : ℚ := fmul 3.5 (float64 realNumDim)
    let maxSamp : ℚ := fmul 70 (float64 realNumDim)
    let sampSlice := SampleRange numSamp minSamp maxSamp
    let means ← make realNumDim
    let stds ← make realNumDim
    let (means, stds) := forRange means.length
      (fun i s => (s.1.set i 0, s.2.set i 2)) (means, stds)
    let dist := Distribution.independentGaussian means stds
    let generator : StandardKFold :=
      { Dist := dist
        Function := .Rosen
        FitterGenerators := [fun _ => { Order := 3, Dist := dist, FitDist := false }]
        NumFolds := 10
        NumDim := realNumDim }
    let nRuns := defaultNumRuns
    let ev : ℚ := fmul 5205.0 (float64 (realNumDim - 1))
    pure ⟨generator, sampSlice, nRuns, ev, realNumDim⟩
  | "friedmanartificial" => do
    let numSamp : Int := 8
    if nDimA ≠ -1 then
      throw (Abort.fatal "artificial has a fixed number of dimensions")
    let realNumDim : Int := 10
    let sampSlice := SampleRange numSamp 35 1000
    let mins ← make 10
    let maxs ← make 10
    let maxs := forRange maxs.length (fun i s => s.set i 1) maxs
    let dist := Distribution.uniform mins maxs
    let generator : StandardKFold :=
      { Dist := dist
        Function := .artificialDomain
        FitterGenerators := [fun _ => { Order := 3, Dist := dist, FitDist := false }]
        NumFolds := 10
        NumDim := realNumDim }
    -- the named result `nRuns` is not assigned in this case: it keeps Go's zero value
    let nRuns : Int := 0
    let ev : ℚ := roundBinary64 14.913264896322753
    pure ⟨generator, sampSlice, nRuns, ev, realNumDim⟩
  | _ => throw (Abort.fatal "Unknown casename")

/-- The case labels of the `switch` in `GetRunDetails`. -/
def recognisedCases : List String :=
  ["rosenunif", "rosenfit", "rosengauss", "friedmanartificial"]

/-- The dimension the Rosenbrock cases work with: 10 when no `-dim` is given
(`realNumDim = nDimA; if nDimA == -1 { realNumDim = 10 }`). -/
def effectiveDim (nDimA : Int) : Int := if nDimA = -1 then 10 else nDimA

/-! ## `main` -/

/-- The command line after `flag.Parse()`: `len(os.Args)` and the values of the
flags `-case`, `-dim` and `-runs` (defaults `""`, `-1`, `-1`). -/
structure CommandLine where
  numArgs : Nat
  casename : String
  setNumDim : Int
  setNumRuns : Int
  deriving DecidableEq, Repr

/-- The anonymous struct `main` serialises to `eim_json.txt`. -/
structure JsonStruct (S E : Type) where
  EIMS : E
  SampSlice : S
  NumDim : Int
  NumRuns : Int

/-- The collaborators of `main`: the `helper` functions, the file system and the
environment.  `gopath` is the package variable that `init` reads from `GOPATH` (an empty
value panics there, before `main` starts); `Join` is `filepath.Join`.  An `Option String`
result is a Go `error` (`none` is `nil`). -/
structure World (S R E : Type) where
  gopath : String
  SampleRange : Int → ℚ → ℚ → S
  MonteCarlo : StandardKFold → S → Int → Except String R
  ErrorInMean : R → ℚ → E
  Join : List String → String
  MkdirAll : String → Option String
  Create : String → Option String
  MarshalIndent : JsonStruct S E → Option String
  PlotEIM : E → S → String → Option String

/-- The calls `main` makes on its collaborators, in program order. -/
inductive Event (S R E : Type) where
  | monteCarlo (generator : StandardKFold) (sampSlice : S) (nRuns : Int)
  | errorInMean (results : R) (trueEv : ℚ)
  | mkdirAll (path : String)
  | create (path : String)
  | writeJson (json : JsonStruct S E)
  | printMses (eims : E) (sampSlice : S)
  | plotEIM (eims : E) (sampSlice : S) (filename : String)

/-- How a run of `main` ends. -/
inductive Exit where
  | completed
  | aborted (a : Abort)
  deriving DecidableEq, Repr

/-- Go `strconv.Itoa`. -/
def Itoa (n : Int) : String := toString n

/-- The function `main`, from the parsed command line to the calls made on the
collaborators and the way the run ends.  Logging calls are left out. -/
def main {S R E : Type} (w : World S R E) (cl : CommandLine) : List (Event S R E) × Exit :=
  if cl.numArgs = 1 then ([], .aborted (.fatal "Must specify case name")) else
  match GetRunDetails w.SampleRange cl.casename cl.setNumDim with
  | .error a => ([], .aborted a)
  | .ok ⟨generator, sampSlice, nRuns0, trueEv, nDim⟩ =>
    if nDim < 0 then ([], .aborted (.fatal "nDim not set")) else
    let nRuns := if cl.setNumRuns ≠ -1 then cl.setNumRuns else nRuns0
    let t1 : List (Event S R E) := [.monteCarlo generator sampSlice nRuns]
    match w.MonteCarlo generator sampSlice nRuns with
    | .error err => (t1, .aborted (.fatal err))
    | .ok results =>
      let eims := w.ErrorInMean results trueEv
      let dimDir := "dim_" ++ Itoa nDim
      let runDir := "runs_" ++ Itoa nRuns
      let filePath := w.Join [w.gopath, "results", "stackmc", cl.casename, dimDir, runDir]
      let t2 := t1 ++ [.errorInMean results trueEv, .mkdirAll filePath]
      match w.MkdirAll filePath with
      | some err => (t2, .aborted (.fatal err))
      | none =>
        let jsonPath := w.Join [filePath, "eim_json.txt"]
        let t3 := t2 ++ [.create jsonPath]
        match w.Create jsonPath with
        | some err => (t3, .aborted (.fatal err))
        | none =>
          let jsonStruct : JsonStruct S E :=
            { EIMS := eims, SampSlice := sampSlice, NumDim := nDim, NumRuns := nRuns }
          match w.MarshalIndent jsonStruct with
          | some err => (t3, .aborted (.fatal err))
          | none =>
            let filename := w.Join [filePath, "eim.pdf"]
            let t4 := t3 ++ [.writeJson jsonStruct, .printMses eims sampSlice,
              .plotEIM eims sampSlice filename]
            match w.PlotEIM eims sampSlice filename with
            | some err => (t4, .aborted (.fatal err))
            | none => (t4, .completed)

/-- A world in which every collaborator succeeds: `MonteCarlo` answers with its budget,
`ErrorInMean` passes that on, paths are joined with `/`. -/
def successWorld : World (Int × ℚ × ℚ) Int Int :=
  { gopath := "/go"
    SampleRange := fun k lo hi => (k, lo, hi)
    MonteCarlo := fun _ _ n => .ok n
    ErrorInMean := fun n _ => n
    Join := fun l => String.intercalate "/" l
    MkdirAll := fun _ => none
    Create := fun _ => none
    MarshalIndent := fun _ => none
    PlotEIM := fun _ _ _ => none }

/-! ## Fold partitioner and fold combination -/

/-- The configuration error of the fold partitioner. -/
inductive PartitionError where
  | InvalidFoldCount
  deriving DecidableEq, Repr

/-- Modelled from the spec: the size of fold `i` of `partition(N, K)`; the package
`helper`, which holds the K-fold code, is not among the sources.  "Each fold has ⌊N/K⌋ or
⌈N/K⌉ elements; exactly N mod K folds get the larger size": the first `N mod K` folds are
the larger ones. -/
def foldSize (N K i : Nat) : Nat := N / K + (if i < N % K then 1 else 0)

/-- Modelled from the spec: the folds of `partition(N, K)` are cut off a shuffled index
sequence one after the other, each with its size. -/
def takeFolds : List Nat → List Nat → List (List Nat)
  | [], _ => []
  | s :: sizes, xs => xs.take s :: takeFolds sizes (xs.drop s)

/-- Modelled from the spec: FoldPartitioner `partition(N, K) → K folds` covering the
indices `[0, N)`, a "permutation-based split (randomized assignment)" that "fails with
InvalidFoldCount if K < 2 or K > N".  The random permutation of the indices drawn by the
partitioner is the argument `shuffle`. -/
def partition (N K : Nat) (shuffle : List Nat) : Except PartitionError (List (List Nat)) :=
  if K < 2 ∨ K > N then .error .InvalidFoldCount
  else .ok (takeFolds ((List.range K).map (foldSize N K)) shuffle)

/-- Modelled from the spec: whether a sample count belongs to the sweep of SampleSweep
`range(count, min, max)`, an "ordered sequence of count integers, monotonically increasing,
covering [min, max]" whose "values are rounded to integers"; `helper.SampleRange` is not
among the sources.  A count in the sweep is a value of `[min, max]` rounded down or up, so
it lies between the floor of `min` and the ceiling of `max`. -/
def InSweep (lo hi : ℚ) (N : Int) : Prop := ⌊lo⌋ ≤ N ∧ N ≤ ⌈hi⌉

/-- Modelled from the spec: a FoldEstimate, "per-fold corrected contribution to the
expectation estimate", with the held-out sample count of its fold. -/
structure FoldEstimate where
  estimate : ℚ
  heldOut : Nat
  deriving DecidableEq, Repr

/-- Modelled from the spec: KFoldEstimator, "Final estimate = sample-size-weighted average
of the K fold estimates, weighted by each fold's held-out sample count". -/
def combine (folds : List FoldEstimate) : ℚ :=
  (folds.map (fun f => (f.heldOut : ℚ) * f.estimate)).sum
    / (folds.map (fun f => (f.heldOut : ℚ))).sum

/-! ## The Rosenbrock function and the laws of the distributions -/

/-- The standard Rosenbrock function on `n + 1` coordinates,
`f(x) = Σ_{i=1}^{d-1} [100 (x_{i+1} - x_i²)² + (1 - x_i)²]` with `d = n + 1`, over any
commutative ring (the rationals to evaluate it, the reals to integrate it). -/
def rosenbrock {R : Type} [CommRing R] {n : Nat} (x : Fin (n + 1) → R) : R :=
  ∑ i : Fin n, (100 * (x i.succ - x i.castSucc ^ 2) ^ 2 + (1 - x i.castSucc) ^ 2)

/-- The uniform probability law on the interval `[a, b]`: Lebesgue measure on the interval,
divided by its length. -/
noncomputable def uniformMeasure (a b : ℝ) : MeasureTheory.Measure ℝ :=
  (ENNReal.ofReal (b - a))⁻¹ • (MeasureTheory.volume.restrict (Set.Icc a b))

/-- Modelled from the spec: the probability law on `ℝ^d` that a `stackmc` distribution
stands for; the package `stackmc` is not among the sources.  `NewUniform(mins, maxs)` has
independent coordinates, the `i`-th uniform on `[mins[i], maxs[i]]`;
`NewIndedpendentGaussian(means, stds)` has independent coordinates, the `i`-th Gaussian
with mean `means[i]` and standard deviation `stds[i]`; `NoFit{}` carries no law. -/
noncomputable def Distribution.law (d : Nat) :
    Distribution → MeasureTheory.Measure (Fin d → ℝ)
  | .uniform mins maxs => MeasureTheory.Measure.pi fun i : Fin d =>
      uniformMeasure ((mins.getD i 0 : ℚ) : ℝ) ((maxs.getD i 0 : ℚ) : ℝ)
  | .independentGaussian means stds => MeasureTheory.Measure.pi fun i : Fin d =>
      ProbabilityTheory.gaussianReal ((means.getD i 0 : ℚ) : ℝ)
        (Real.toNNReal (((stds.getD i 0 : ℚ) : ℝ) ^ 2))
  | .noFit => 0

/-! ## Auxiliary facts about the slice-filling loops -/

theorem foldl_set_range {α : Type} (a : α) (k : Nat) (xs : List α) (hk : k ≤ xs.length) :
    (List.range k).foldl (fun s i => s.set i a) xs = List.replicate k a ++ xs.drop k := by
  induction k with
  | zero => simp
  | succ k ih =>
    have hk1 : k ≤ xs.length := Nat.le_of_succ_le hk
    rw [List.range_succ, List.foldl_append, ih hk1]
    simp only [List.foldl_cons, List.foldl_nil]
    rw [List.set_append_right _ _ (by simp), List.length_replicate, Nat.sub_self]
    have hlt : k < xs.length := hk
    rw [List.drop_eq_getElem_cons hlt, List.set_cons_zero, List.replicate_succ',
      List.append_assoc]
    rfl

theorem forRange_set {α : Type} (a : α) (xs : List α) :
    forRange xs.length (fun i s => s.set i a) xs = List.replicate xs.length a := by
  unfold forRange
  rw [foldl_set_range a xs.length xs (Nat.le_refl _)]
  simp

theorem foldl_set_pair {α : Type} (a b : α) (l : List Nat) (xs ys : List α) :
    l.foldl (fun (s : List α × List α) i => (s.1.set i a, s.2.set i b)) (xs, ys)
      = (l.foldl (fun s i => s.set i a) xs, l.foldl (fun s i => s.set i b) ys) := by
  induction l generalizing xs ys with
  | nil => rfl
  | cons i l ih => simp only [List.foldl_cons, ih]

theorem forRange_set_pair {α : Type} (a b : α) (xs ys : List α) (h : xs.length = ys.length) :
    forRange ys.length (fun i (s : List α × List α) => (s.1.set i a, s.2.set i b)) (xs, ys)
      = (List.replicate xs.length a, List.replicate ys.length b) := by
  unfold forRange
  rw [foldl_set_pair, foldl_set_range b ys.length ys (Nat.le_refl _),
    foldl_set_range a ys.length xs (by omega)]
  simp [h]

theorem forRange_replicate {α : Type} (z a : α) (n : Nat) :
    forRange n (fun i s => s.set i a) (List.replicate n z) = List.replicate n a := by
  have h := forRange_set a (List.replicate n z)
  simpa using h

theorem forRange_replicate_pair {α : Type} (z a b : α) (n : Nat) :
    forRange n (fun i (s : List α × List α) => (s.1.set i a, s.2.set i b))
        (List.replicate n z, List.replicate n z)
      = (List.replicate n a, List.replicate n b) := by
  have h := forRange_set_pair a b (List.replicate n z) (List.replicate n z) rfl
  simpa using h

/-! ## Rounding to binary64 -/

theorem log_two_eq_of_bounds {r : ℚ} {k : Int} (hr : 0 < r) (h1 : (2 : ℚ) ^ k ≤ r)
    (h2 : r < (2 : ℚ) ^ (k + 1)) : Int.log 2 r = k := by
  have a1 : ((2 : ℕ) : ℚ) ^ Int.log 2 r ≤ r := Int.zpow_log_le_self (by norm_num) hr
  have a2 : r < ((2 : ℕ) : ℚ) ^ (Int.log 2 r + 1) := Int.lt_zpow_succ_log_self (by norm_num) r
  rw [Nat.cast_ofNat] at a1 a2
  have b1 : (2 : ℚ) ^ Int.log 2 r < (2 : ℚ) ^ (k + 1) := lt_of_le_of_lt a1 h2
  have b2 : (2 : ℚ) ^ k < (2 : ℚ) ^ (Int.log 2 r + 1) := lt_of_le_of_lt h1 a2
  rw [zpow_lt_zpow_iff_right₀ (by norm_num : (1 : ℚ) < 2)] at b1 b2
  omega

theorem roundHalfEven_intCast (z : Int) : roundHalfEven (z : ℚ) = z := by
  unfold roundHalfEven
  simp

theorem roundBinary64_abs_exact (m : Int) (e : Int) (hm0 : 0 < m) (hm : m < 2 ^ 53) :
    roundHalfEven (((m : ℚ) * (2 : ℚ) ^ e) / (2 : ℚ) ^ (Int.log 2 ((m : ℚ) * (2 : ℚ) ^ e) - 52))
        * (2 : ℚ) ^ (Int.log 2 ((m : ℚ) * (2 : ℚ) ^ e) - 52)
      = (m : ℚ) * (2 : ℚ) ^ e := by
  have h2 : (0 : ℚ) < 2 := by norm_num
  have hpow : ∀ z : Int, (0 : ℚ) < (2 : ℚ) ^ z := fun z => zpow_pos h2 z
  have hmq : (0 : ℚ) < (m : ℚ) := by exact_mod_cast hm0
  have hq : (0 : ℚ) < (m : ℚ) * (2 : ℚ) ^ e := mul_pos hmq (hpow e)
  have a1 : ((2 : ℕ) : ℚ) ^ Int.log 2 ((m : ℚ) * (2 : ℚ) ^ e) ≤ (m : ℚ) * (2 : ℚ) ^ e :=
    Int.zpow_log_le_self (by norm_num) hq
  rw [Nat.cast_ofNat] at a1
  have hm53 : (m : ℚ) < (2 : ℚ) ^ (53 : Int) := by
    have h' : (m : ℚ) < ((2 ^ 53 : Int) : ℚ) := by exact_mod_cast hm
    have h53 : ((2 ^ 53 : Int) : ℚ) = (2 : ℚ) ^ (53 : Int) := by norm_num
    rw [h53] at h'
    exact h'
  have b1 : (2 : ℚ) ^ Int.log 2 ((m : ℚ) * (2 : ℚ) ^ e) < (2 : ℚ) ^ (53 + e) := by
    rw [zpow_add₀ (by norm_num : (2 : ℚ) ≠ 0)]
    exact lt_of_le_of_lt a1 (mul_lt_mul_of_pos_right hm53 (hpow e))
  rw [zpow_lt_zpow_iff_right₀ (by norm_num : (1 : ℚ) < 2)] at b1
  obtain ⟨k, hk⟩ : ∃ k : Nat, e = (Int.log 2 ((m : ℚ) * (2 : ℚ) ^ e) - 52) + k :=
    ⟨(e - (Int.log 2 ((m : ℚ) * (2 : ℚ) ^ e) - 52)).toNat, by omega⟩
  generalize Int.log 2 ((m : ℚ) * (2 : ℚ) ^ e) - 52 = s at hk ⊢
  have hdiv : (m : ℚ) * (2 : ℚ) ^ e / (2 : ℚ) ^ s = ((m * 2 ^ k : Int) : ℚ) := by
    rw [hk, zpow_add₀ (by norm_num : (2 : ℚ) ≠ 0), zpow_natCast]
    push_cast
    field_simp
    ring
  rw [hdiv, roundHalfEven_intCast]
  rw [hk, zpow_add₀ (by norm_num : (2 : ℚ) ≠ 0), zpow_natCast]
  push_cast
  ring

theorem roundBinary64_exact (m e : Int) (hm : |m| < 2 ^ 53) :
    roundBinary64 ((m : ℚ) * (2 : ℚ) ^ e) = (m : ℚ) * (2 : ℚ) ^ e := by
  have hpow : (0 : ℚ) < (2 : ℚ) ^ e := zpow_pos (by norm_num) e
  rcases lt_trichotomy m 0 with hneg | rfl | hpos
  · have hq : (m : ℚ) * (2 : ℚ) ^ e < 0 :=
      mul_neg_of_neg_of_pos (by exact_mod_cast hneg) hpow
    have habs : |(m : ℚ) * (2 : ℚ) ^ e| = ((-m : Int) : ℚ) * (2 : ℚ) ^ e := by
      rw [abs_of_neg hq]; push_cast; ring
    unfold roundBinary64
    rw [if_neg hq.ne]
    simp only [if_pos hq, habs]
    rw [roundBinary64_abs_exact (-m) e (by omega) (by rw [abs_of_neg hneg] at hm; exact hm)]
    push_cast; ring
  · simp [roundBinary64]
  · have hq : 0 < (m : ℚ) * (2 : ℚ) ^ e := mul_pos (by exact_mod_cast hpos) hpow
    unfold roundBinary64
    rw [if_neg hq.ne']
    simp only [if_neg (not_lt.2 hq.le), abs_of_pos hq]
    exact roundBinary64_abs_exact m e hpos (by rw [abs_of_pos hpos] at hm; exact hm)

theorem roundBinary64_intCast (m : Int) (hm : |m| < 2 ^ 53) : roundBinary64 (m : ℚ) = m := by
  have h := roundBinary64_exact m 0 hm
  simpa using h

/-- The product `5205 * 1730492649427` lies midway between two binary64 values and rounds
to the even one. -/
theorem roundBinary64_tie :
    roundBinary64 9007214240267535 = 9007214240267536 := by
  have hq : (0 : ℚ) < 9007214240267535 := by norm_num
  have hlog : Int.log 2 (9007214240267535 : ℚ) = 53 :=
    log_two_eq_of_bounds hq (by norm_num) (by norm_num)
  unfold roundBinary64
  rw [if_neg hq.ne']
  simp only [if_neg (not_lt.2 hq.le), abs_of_pos hq, hlog]
  have hfl : ⌊(9007214240267535 : ℚ) / (2 : ℚ) ^ ((53 : Int) - 52)⌋ = 4503607120133767 := by
    rw [Int.floor_eq_iff]
    constructor <;> norm_num
  unfold roundHalfEven
  simp only [hfl]
  norm_num

theorem roundBinary64_of_isBinary64 {q : ℚ} (h : IsBinary64 q) : roundBinary64 q = q := by
  obtain ⟨m, e, hm, _, _, rfl⟩ := h
  exact roundBinary64_exact m e hm

/-- The float products of `GetRunDetails` are exact: for a dimension between 0 and `2^40`
the values `float64(d)`, `3.5*d`, `7*d`, `70*d`, `1924*(d-1)` and `5205*(d-1)` are all
binary64 values. -/
theorem float_products_exact (d : Int) (h0 : 0 ≤ d) (h1 : d ≤ 2 ^ 40) :
    IsBinary64 (d : ℚ) ∧ IsBinary64 (3.5 * (d : ℚ)) ∧ IsBinary64 (7 * (d : ℚ)) ∧
    IsBinary64 (70 * (d : ℚ)) ∧ IsBinary64 (1924.0 * ((d - 1 : Int) : ℚ)) ∧
    IsBinary64 (5205.0 * ((d - 1 : Int) : ℚ)) := by
  refine ⟨⟨d, 0, abs_lt.2 ⟨by omega, by omega⟩, by decide, by decide, by simp⟩,
    ⟨7 * d, -1, abs_lt.2 ⟨by omega, by omega⟩, by decide, by decide, ?_⟩,
    ⟨7 * d, 0, abs_lt.2 ⟨by omega, by omega⟩, by decide, by decide, by push_cast; simp⟩,
    ⟨70 * d, 0, abs_lt.2 ⟨by omega, by omega⟩, by decide, by decide, by push_cast; simp⟩,
    ⟨1924 * (d - 1), 0, abs_lt.2 ⟨by omega, by omega⟩, by decide, by decide, ?_⟩,
    ⟨5205 * (d - 1), 0, abs_lt.2 ⟨by omega, by omega⟩, by decide, by decide, ?_⟩⟩
  · push_cast
    norm_num
    ring
  · push_cast
    norm_num
  · push_cast
    norm_num

/-- Up to the longest slice the conversions `float64(d)`, `float64(d-1)` and the sweep
products `3.5*d`, `7*d`, `70*d` are exact. -/
theorem sweep_products_exact (d : Int) (h0 : 0 ≤ d) (h1 : d ≤ maxSliceLen) :
    float64 d = (d : ℚ) ∧ float64 (d - 1) = (d : ℚ) - 1 ∧
    fmul 3.5 (float64 d) = 3.5 * (d : ℚ) ∧ fmul 7 (float64 d) = 7 * (d : ℚ) ∧
    fmul 70 (float64 d) = 70 * (d : ℚ) := by
  unfold maxSliceLen at h1
  have hd : float64 d = (d : ℚ) :=
    roundBinary64_intCast d (abs_lt.2 ⟨by omega, by omega⟩)
  have hd1 : float64 (d - 1) = (d : ℚ) - 1 := by
    have h := roundBinary64_intCast (d - 1) (abs_lt.2 ⟨by omega, by omega⟩)
    unfold float64
    rw [h]
    push_cast
    ring
  refine ⟨hd, hd1, ?_, ?_, ?_⟩
  · have h := roundBinary64_exact (7 * d) (-1) (abs_lt.2 ⟨by omega, by omega⟩)
    have e : (3.5 : ℚ) * (d : ℚ) = ((7 * d : Int) : ℚ) * (2 : ℚ) ^ (-1 : Int) := by
      push_cast
      norm_num
      ring
    rw [hd]
    unfold fmul
    rw [e, h]
  · have h := roundBinary64_intCast (7 * d) (abs_lt.2 ⟨by omega, by omega⟩)
    rw [hd]
    unfold fmul
    have e : (7 : ℚ) * (d : ℚ) = ((7 * d : Int) : ℚ) := by push_cast; ring
    rw [e, h]
  · have h := roundBinary64_intCast (70 * d) (abs_lt.2 ⟨by omega, by omega⟩)
    rw [hd]
    unfold fmul
    have e : (70 : ℚ) * (d : ℚ) = ((70 * d : Int) : ℚ) := by push_cast; ring
    rw [e, h]

/-- Up to dimension `2^40` the products `1924*(d-1)` and `5205*(d-1)` are exact. -/
theorem ev_products_exact (d : Int) (h0 : 0 ≤ d) (h1 : d ≤ 2 ^ 40) :
    fmul 1924 ((d : ℚ) - 1) = 1924 * ((d : ℚ) - 1) ∧
    fmul 5205 ((d : ℚ) - 1) = 5205 * ((d : ℚ) - 1) := by
  constructor
  · have h := roundBinary64_intCast (1924 * (d - 1)) (abs_lt.2 ⟨by omega, by omega⟩)
    unfold fmul
    have e : (1924 : ℚ) * ((d : ℚ) - 1) = ((1924 * (d - 1) : Int) : ℚ) := by push_cast; ring
    rw [e, h]
  · have h := roundBinary64_intCast (5205 * (d - 1)) (abs_lt.2 ⟨by omega, by omega⟩)
    unfold fmul
    have e : (5205 : ℚ) * ((d : ℚ) - 1) = ((5205 * (d - 1) : Int) : ℚ) := by push_cast; ring
    rw [e, h]

/-! ## The branches of `GetRunDetails` -/

theorem make_of_inRange {n : Int} (h : 0 ≤ n) (hmax : n ≤ maxSliceLen) :
    make n = .ok (List.replicate n.toNat 0) := by
  unfold make
  rw [if_neg (by omega)]

theorem make_of_outOfRange {n : Int} (h : n < 0 ∨ maxSliceLen < n) :
    make n = .error (.panic "makeslice: len out of range") := by
  unfold make
  rw [if_pos h]

theorem GetRunDetails_rosenunif {S : Type} (SR : Int → ℚ → ℚ → S) (nDimA : Int)
    (h : 0 ≤ effectiveDim nDimA) (hmax : effectiveDim nDimA ≤ maxSliceLen) :
    GetRunDetails SR "rosenunif" nDimA = .ok
      { generator :=
          { Dist := .uniform (List.replicate (effectiveDim nDimA).toNat (-3))
              (List.replicate (effectiveDim nDimA).toNat 3)
            Function := .Rosen
            FitterGenerators := [fun _ =>
              { Order := 3
                Dist := .uniform (List.replicate (effectiveDim nDimA).toNat (-3))
                  (List.replicate (effectiveDim nDimA).toNat 3)
                FitDist := false }]
            NumFolds := 10
            NumDim := effectiveDim nDimA }
        sampSlice := SR 8 (3.5 * (effectiveDim nDimA : ℚ)) (7 * (effectiveDim nDimA : ℚ))
        nRuns := 2000
        ev := fmul 1924 ((effectiveDim nDimA : ℚ) - 1)
        realNumDim := effectiveDim nDimA } := by
  obtain ⟨_, e1, e2, e3, _⟩ := sweep_products_exact _ h hmax
  unfold effectiveDim at *
  simp only [GetRunDetails]
  rw [make_of_inRange h hmax]
  simp only [bind, Except.bind, pure, Except.pure, List.length_replicate,
    forRange_replicate_pair, defaultNumRuns, e1, e2, e3]
  norm_num

theorem GetRunDetails_rosenfit {S : Type} (SR : Int → ℚ → ℚ → S) (nDimA : Int)
    (h : 0 ≤ effectiveDim nDimA) (hmax : effectiveDim nDimA ≤ maxSliceLen) :
    GetRunDetails SR "rosenfit" nDimA = .ok
      { generator :=
          { Dist := .uniform (List.replicate (effectiveDim nDimA).toNat (-3))
              (List.replicate (effectiveDim nDimA).toNat 3)
            Function := .Rosen
            FitterGenerators := [fun _ => { Order := 3, Dist := .noFit, FitDist := true }]
            NumFolds := 10
            NumDim := effectiveDim nDimA }
        sampSlice := SR 8 (3.5 * (effectiveDim nDimA : ℚ)) (7 * (effectiveDim nDimA : ℚ))
        nRuns := 2000
        ev := fmul 1924 ((effectiveDim nDimA : ℚ) - 1)
        realNumDim := effectiveDim nDimA } := by
  obtain ⟨_, e1, e2, e3, _⟩ := sweep_products_exact _ h hmax
  unfold effectiveDim at *
  simp only [GetRunDetails]
  rw [make_of_inRange h hmax]
  simp only [bind, Except.bind, pure, Except.pure, List.length_replicate,
    forRange_replicate_pair, defaultNumRuns, e1, e2, e3]
  norm_num

theorem GetRunDetails_rosengauss {S : Type} (SR : Int → ℚ → ℚ → S) (nDimA : Int)
    (h : 0 ≤ effectiveDim nDimA) (hmax : effectiveDim nDimA ≤ maxSliceLen) :
    GetRunDetails SR "rosengauss" nDimA = .ok
      { generator :=
          { Dist := .independentGaussian (List.replicate (effectiveDim nDimA).toNat 0)
              (List.replicate (effectiveDim nDimA).toNat 2)
            Function := .Rosen
            FitterGenerators := [fun _ =>
              { Order := 3
                Dist := .independentGaussian (List.replicate (effectiveDim nDimA).toNat 0)
                  (List.replicate (effectiveDim nDimA).toNat 2)
                FitDist := false }]
            NumFolds := 10
            NumDim := effectiveDim nDimA }
        sampSlice := SR 8 (3.5 * (effectiveDim nDimA : ℚ)) (70 * (effectiveDim nDimA : ℚ))
        nRuns := 2000
        ev := fmul 5205 ((effectiveDim nDimA : ℚ) - 1)
        realNumDim := effectiveDim nDimA } := by
  obtain ⟨_, e1, e2, _, e4⟩ := sweep_products_exact _ h hmax
  unfold effectiveDim at *
  simp only [GetRunDetails]
  rw [make_of_inRange h hmax]
  simp only [bind, Except.bind, pure, Except.pure, List.length_replicate,
    forRange_replicate_pair, defaultNumRuns, e1, e2, e4]
  norm_num

theorem GetRunDetails_rosen_outOfRange {S : Type} (SR : Int → ℚ → ℚ → S) (c : String)
    (nDimA : Int) (hc : c = "rosenunif" ∨ c = "rosenfit" ∨ c = "rosengauss")
    (h : effectiveDim nDimA < 0 ∨ maxSliceLen < effectiveDim nDimA) :
    GetRunDetails SR c nDimA = .error (.panic "makeslice: len out of range") := by
  unfold effectiveDim at *
  rcases hc with rfl | rfl | rfl <;>
  · simp only [GetRunDetails]
    rw [make_of_outOfRange h]
    rfl

theorem GetRunDetails_friedman {S : Type} (SR : Int → ℚ → ℚ → S) :
    GetRunDetails SR "friedmanartificial" (-1) = .ok
      { generator :=
          { Dist := .uniform (List.replicate 10 0) (List.replicate 10 1)
            Function := .artificialDomain
            FitterGenerators := [fun _ =>
              { Order := 3
                Dist := .uniform (List.replicate 10 0) (List.replicate 10 1)
                FitDist := false }]
            NumFolds := 10
            NumDim := 10 }
        sampSlice := SR 8 35 1000
        nRuns := 0
        ev := roundBinary64 14.913264896322753
        realNumDim := 10 } := by
  simp only [GetRunDetails]
  rw [make_of_inRange (by decide) (by decide)]
  simp only [bind, Except.bind, pure, Except.pure, List.length_replicate,
    forRange_replicate, ne_eq, not_true_eq_false, if_false]
  rfl

theorem GetRunDetails_friedman_fixed {S : Type} (SR : Int → ℚ → ℚ → S) (nDimA : Int)
    (h : nDimA ≠ -1) :
    GetRunDetails SR "friedmanartificial" nDimA
      = .error (.fatal "artificial has a fixed number of dimensions") := by
  simp only [GetRunDetails]
  simp [h, bind, Except.bind, throw, throwThe, MonadExceptOf.throw]

theorem GetRunDetails_unknown {S : Type} (SR : Int → ℚ → ℚ → S) (c : String) (nDimA : Int)
    (hc : c ∉ recognisedCases) :
    GetRunDetails SR c nDimA = .error (.fatal "Unknown casename") := by
  simp only [recognisedCases, List.mem_cons, List.mem_singleton, not_or, List.mem_nil_iff,
    or_false] at hc
  obtain ⟨h1, h2, h3, h4⟩ := hc
  unfold GetRunDetails
  split
  · exact absurd rfl h1
  · exact absurd rfl h2
  · exact absurd rfl h3
  · exact absurd rfl h4
  · rfl

/-- What a normal return of `GetRunDetails` looks like, field by field. -/
theorem GetRunDetails_ok_fields {S : Type} (SR : Int → ℚ → ℚ → S) (c : String) (nDimA : Int)
    (r : RunDetails S) (h : GetRunDetails SR c nDimA = .ok r) :
    0 ≤ r.realNumDim ∧ r.realNumDim ≤ maxSliceLen ∧
    r.generator.NumFolds = 10 ∧ r.generator.NumDim = r.realNumDim ∧
    (((c = "rosenunif" ∨ c = "rosenfit") ∧ r.realNumDim = effectiveDim nDimA ∧
        r.sampSlice = SR 8 (3.5 * (r.realNumDim : ℚ)) (7 * (r.realNumDim : ℚ)) ∧
        r.nRuns = 2000 ∧ r.ev = fmul 1924 ((r.realNumDim : ℚ) - 1)) ∨
      (c = "rosengauss" ∧ r.realNumDim = effectiveDim nDimA ∧
        r.sampSlice = SR 8 (3.5 * (r.realNumDim : ℚ)) (70 * (r.realNumDim : ℚ)) ∧
        r.nRuns = 2000 ∧ r.ev = fmul 5205 ((r.realNumDim : ℚ) - 1)) ∨
      (c = "friedmanartificial" ∧ nDimA = -1 ∧ r.realNumDim = 10 ∧
        r.sampSlice = SR 8 35 1000 ∧ r.nRuns = 0)) := by
  by_cases hc : c ∈ recognisedCases
  · simp only [recognisedCases, List.mem_cons, List.mem_singleton, List.mem_nil_iff,
      or_false] at hc
    rcases hc with rfl | rfl | rfl | rfl
    · by_cases hd : effectiveDim nDimA < 0 ∨ maxSliceLen < effectiveDim nDimA
      · rw [GetRunDetails_rosen_outOfRange SR _ nDimA (Or.inl rfl) hd] at h
        exact absurd h (by simp)
      · have h0 : 0 ≤ effectiveDim nDimA := by omega
        have h1 : effectiveDim nDimA ≤ maxSliceLen := by omega
        rw [GetRunDetails_rosenunif SR nDimA h0 h1] at h
        cases h
        exact ⟨h0, h1, rfl, rfl, Or.inl ⟨Or.inl rfl, rfl, rfl, rfl, rfl⟩⟩
    · by_cases hd : effectiveDim nDimA < 0 ∨ maxSliceLen < effectiveDim nDimA
      · rw [GetRunDetails_rosen_outOfRange SR _ nDimA (Or.inr (Or.inl rfl)) hd] at h
        exact absurd h (by simp)
      · have h0 : 0 ≤ effectiveDim nDimA := by omega
        have h1 : effectiveDim nDimA ≤ maxSliceLen := by omega
        rw [GetRunDetails_rosenfit SR nDimA h0 h1] at h
        cases h
        exact ⟨h0, h1, rfl, rfl, Or.inl ⟨Or.inr rfl, rfl, rfl, rfl, rfl⟩⟩
    · by_cases hd : effectiveDim nDimA < 0 ∨ maxSliceLen < effectiveDim nDimA
      · rw [GetRunDetails_rosen_outOfRange SR _ nDimA (Or.inr (Or.inr rfl)) hd] at h
        exact absurd h (by simp)
      · have h0 : 0 ≤ effectiveDim nDimA := by omega
        have h1 : effectiveDim nDimA ≤ maxSliceLen := by omega
        rw [GetRunDetails_rosengauss SR nDimA h0 h1] at h
        cases h
        exact ⟨h0, h1, rfl, rfl, Or.inr (Or.inl ⟨rfl, rfl, rfl, rfl, rfl⟩)⟩
    · by_cases hn : nDimA = -1
      · subst hn
        rw [GetRunDetails_friedman SR] at h
        cases h
        exact ⟨show (0 : Int) ≤ 10 by decide, show (10 : Int) ≤ maxSliceLen by decide,
          rfl, rfl, Or.inr (Or.inr ⟨rfl, rfl, rfl, rfl, rfl⟩)⟩
      · rw [GetRunDetails_friedman_fixed SR nDimA hn] at h
        exact absurd h (by simp)
  · rw [GetRunDetails_unknown SR c nDimA hc] at h
    exact absurd h (by simp)

theorem GetRunDetails_ok_recognised {S : Type} (SR : Int → ℚ → ℚ → S) (c : String)
    (nDimA : Int) (r : RunDetails S) (h : GetRunDetails SR c nDimA = .ok r) :
    c ∈ recognisedCases := by
  by_contra hc
  rw [GetRunDetails_unknown SR c nDimA hc] at h
  exact absurd h (by simp)

/-! ## The claims about `GetRunDetails` -/

/-- C1. For the case name "rosenunif" without a dimension override (`nDimA = -1`),
`GetRunDetails` returns the configuration of the end-to-end scenario: dimension 10, a
`StandardKFold` generator with `NumDim = 10`, `NumFolds = 10`, the uniform distribution with
ten lower bounds -3 and ten upper bounds 3, the Rosenbrock target, exactly one fitter
generator, which yields a `Polynomial` of order 3 over that same distribution, the sweep
`SampleRange(8, 35, 70)` where `35 = 3.5 * 10` and `70 = 7 * 10`, and `nRuns = 2000`. -/
theorem rosenunif_default_configuration {S : Type} (SR : Int → ℚ → ℚ → S) :
    ∃ r : RunDetails S, GetRunDetails SR "rosenunif" (-1) = .ok r ∧
      r.realNumDim = 10 ∧
      r.generator.NumDim = 10 ∧
      r.generator.NumFolds = 10 ∧
      r.generator.Function = .Rosen ∧
      r.generator.Dist = .uniform [-3, -3, -3, -3, -3, -3, -3, -3, -3, -3]
        [3, 3, 3, 3, 3, 3, 3, 3, 3, 3] ∧
      r.generator.FitterGenerators.map (fun g => g ())
        = [{ Order := 3, Dist := r.generator.Dist, FitDist := false }] ∧
      r.sampSlice = SR 8 35 70 ∧
      (3.5 * 10 : ℚ) = 35 ∧ (7 * 10 : ℚ) = 70 ∧
      r.nRuns = 2000 ∧ defaultNumRuns = 2000 := by
  refine ⟨_, GetRunDetails_rosenunif SR (-1) (by decide) (by decide), rfl, rfl, rfl, rfl, rfl, rfl, ?_,
    by norm_num, by norm_num, rfl, rfl⟩
  show SR 8 (3.5 * ((effectiveDim (-1) : Int) : ℚ)) (7 * ((effectiveDim (-1) : Int) : ℚ))
    = SR 8 35 70
  have h : ((effectiveDim (-1) : Int) : ℚ) = 10 := by norm_num [effectiveDim]
  rw [h]
  norm_num

/-- C3, as stated, fails: with `-dim 1` the case "rosenunif" is accepted (dimension 1, at
least 1) and the lower bound handed to `SampleRange` is 3.5, below the fold count 10. -/
theorem sweep_lower_bound_below_fold_count :
    ∃ r : RunDetails (Int × ℚ × ℚ),
      GetRunDetails (fun k lo hi => (k, lo, hi)) "rosenunif" 1 = .ok r ∧
      "rosenunif" ∈ recognisedCases ∧ 1 ≤ r.realNumDim ∧
      r.sampSlice.2.1 = 3.5 ∧ r.sampSlice.2.1 < (r.generator.NumFolds : ℚ) := by
  refine ⟨_, GetRunDetails_rosenunif _ 1 (by decide) (by decide), by decide, by decide, ?_, ?_⟩
  · show (3.5 * ((effectiveDim 1 : Int) : ℚ) : ℚ) = 3.5
    norm_num [effectiveDim]
  · show (3.5 * ((effectiveDim 1 : Int) : ℚ) : ℚ) < ((10 : Int) : ℚ)
    norm_num [effectiveDim]

/-- C3, amended. Whenever `GetRunDetails` returns (any recognised case, any accepted
dimension `d`), `NumFolds = 10 ≥ 2`, and the lower bound it hands to `SampleRange` (`3.5*d`
for the Rosenbrock cases, 35 for "friedmanartificial") is at least `NumFolds` exactly when
`d ≥ 3`.  For `d ≥ 3` every sample count `N` in the sweep satisfies `K ≤ N`, and the fold
partition of `N` samples into `K` folds does not fail with `InvalidFoldCount`: it returns
folds for every shuffle. -/
theorem sweep_lower_bound_covers_folds (c : String) (nDimA : Int)
    (r : RunDetails (Int × ℚ × ℚ))
    (h : GetRunDetails (fun k lo hi => (k, lo, hi)) c nDimA = .ok r) :
    c ∈ recognisedCases ∧
    r.generator.NumFolds = 10 ∧ 2 ≤ r.generator.NumFolds ∧
    ((r.generator.NumFolds : ℚ) ≤ r.sampSlice.2.1 ↔ 3 ≤ r.realNumDim) ∧
    (3 ≤ r.realNumDim → ∀ N : Int, InSweep r.sampSlice.2.1 r.sampSlice.2.2 N →
      r.generator.NumFolds ≤ N ∧
      ∀ shuffle : List Nat,
        partition N.toNat r.generator.NumFolds.toNat shuffle ≠ .error .InvalidFoldCount ∧
        ∃ folds, partition N.toNat r.generator.NumFolds.toNat shuffle = .ok folds) := by
  have hrec := GetRunDetails_ok_recognised _ c nDimA r h
  obtain ⟨h0, _, hK, _, hcases⟩ := GetRunDetails_ok_fields _ c nDimA r h
  have hiff : (10 : ℚ) ≤ r.sampSlice.2.1 ↔ 3 ≤ r.realNumDim := by
    have hrosen : (10 : ℚ) ≤ 3.5 * (r.realNumDim : ℚ) ↔ 3 ≤ r.realNumDim := by
      constructor
      · intro hle
        by_contra hlt
        have h2 : r.realNumDim ≤ 2 := by omega
        have h2q : (r.realNumDim : ℚ) ≤ 2 := by exact_mod_cast h2
        norm_num at hle
        linarith
      · intro h3
        have h3q : (3 : ℚ) ≤ (r.realNumDim : ℚ) := by exact_mod_cast h3
        norm_num
        linarith
    rcases hcases with ⟨_, _, hs, _⟩ | ⟨_, _, hs, _⟩ | ⟨_, _, hd, hs, _⟩
    · rw [hs]; exact hrosen
    · rw [hs]; exact hrosen
    · rw [hs, hd]
      show (10 : ℚ) ≤ 35 ↔ (3 : Int) ≤ 10
      constructor
      · intro _; decide
      · intro _; norm_num
  have hKq : (r.generator.NumFolds : ℚ) = 10 := by rw [hK]; norm_num
  refine ⟨hrec, hK, by rw [hK]; decide, by rw [hKq]; exact hiff, ?_⟩
  intro h3 N hN
  have hlow : (10 : ℚ) ≤ r.sampSlice.2.1 := hiff.2 h3
  have hfloor : (10 : Int) ≤ ⌊r.sampSlice.2.1⌋ := Int.le_floor.2 (by exact_mod_cast hlow)
  have hN10 : (10 : Int) ≤ N := le_trans hfloor hN.1
  have hpart : ∀ shuffle : List Nat,
      partition N.toNat (10 : Int).toNat shuffle
        = .ok (takeFolds ((List.range (10 : Int).toNat).map (foldSize N.toNat (10 : Int).toNat))
            shuffle) := by
    intro shuffle
    unfold partition
    have h10 : (10 : Int).toNat = 10 := rfl
    rw [if_neg (by rw [h10]; omega)]
  rw [hK]
  refine ⟨hN10, fun shuffle => ⟨?_, _, hpart shuffle⟩⟩
  rw [hpart shuffle]
  simp

/-- Witness for C3 amended: "rosengauss" with `-dim 3` has the lower bound 10.5, and the
sample count 11 of its sweep can be partitioned into the 10 folds. -/
theorem sweep_lower_bound_covers_folds_witness :
    ∃ r : RunDetails (Int × ℚ × ℚ),
      GetRunDetails (fun k lo hi => (k, lo, hi)) "rosengauss" 3 = .ok r ∧
      (r.generator.NumFolds : ℚ) ≤ r.sampSlice.2.1 ∧
      ∃ folds, partition (11 : Int).toNat r.generator.NumFolds.toNat
        [3, 9, 0, 5, 1, 10, 7, 2, 8, 4, 6] = .ok folds := by
  have hw := sweep_lower_bound_covers_folds "rosengauss" 3 _
    (GetRunDetails_rosengauss _ 3 (by decide) (by decide))
  refine ⟨_, GetRunDetails_rosengauss _ 3 (by decide) (by decide),
    hw.2.2.2.1.2 (by decide), ?_⟩
  have hin : InSweep (3.5 * ((effectiveDim 3 : Int) : ℚ)) (70 * ((effectiveDim 3 : Int) : ℚ))
      11 := by
    constructor
    · exact Int.le_of_lt_add_one (Int.floor_lt.2 (by norm_num [effectiveDim]))
    · exact Int.le_ceil_iff.2 (by norm_num [effectiveDim])
  exact ((hw.2.2.2.2 (by decide) 11 hin).2 _).2

/-- C4. Whenever `GetRunDetails` returns (any recognised case, any dimension, which is
then at least 0), the arguments it passed to `SampleRange` are `count = 8`, at least 1, and
`min ≤ max`: `3.5*d ≤ 7*d` for "rosenunif" and "rosenfit", `3.5*d ≤ 70*d` for "rosengauss",
`35 ≤ 1000` for "friedmanartificial"; for a dimension of at least 1 the inequality is
strict. -/
theorem sampleRange_arguments_valid (c : String) (nDimA : Int)
    (r : RunDetails (Int × ℚ × ℚ))
    (h : GetRunDetails (fun k lo hi => (k, lo, hi)) c nDimA = .ok r)
    (hd : 0 ≤ r.realNumDim) :
    c ∈ recognisedCases ∧
    r.sampSlice.1 = 8 ∧ 1 ≤ r.sampSlice.1 ∧
    r.sampSlice.2.1 ≤ r.sampSlice.2.2 ∧
    (1 ≤ r.realNumDim → r.sampSlice.2.1 < r.sampSlice.2.2) ∧
    ((c = "rosenunif" ∨ c = "rosenfit") →
      r.sampSlice.2 = (3.5 * (r.realNumDim : ℚ), 7 * (r.realNumDim : ℚ))) ∧
    (c = "rosengauss" →
      r.sampSlice.2 = (3.5 * (r.realNumDim : ℚ), 70 * (r.realNumDim : ℚ))) ∧
    (c = "friedmanartificial" → r.sampSlice.2 = (35, 1000)) := by
  have hrec := GetRunDetails_ok_recognised _ c nDimA r h
  obtain ⟨_, _, _, _, hcases⟩ := GetRunDetails_ok_fields _ c nDimA r h
  have hdq : (0 : ℚ) ≤ (r.realNumDim : ℚ) := by exact_mod_cast hd
  rcases hcases with ⟨hc, _, hs, _⟩ | ⟨hc, _, hs, _⟩ | ⟨hc, _, _, hs, _⟩
  · refine ⟨hrec, by rw [hs], by rw [hs]; show (1 : Int) ≤ 8; decide, ?_, ?_, ?_, ?_, ?_⟩
    · rw [hs]; show (3.5 * (r.realNumDim : ℚ) : ℚ) ≤ 7 * (r.realNumDim : ℚ)
      norm_num; linarith
    · intro h1
      have h1q : (1 : ℚ) ≤ (r.realNumDim : ℚ) := by exact_mod_cast h1
      rw [hs]; show (3.5 * (r.realNumDim : ℚ) : ℚ) < 7 * (r.realNumDim : ℚ)
      norm_num; linarith
    · intro _; rw [hs]
    · intro hg; rcases hc with rfl | rfl <;> exact absurd hg (by decide)
    · intro hg; rcases hc with rfl | rfl <;> exact absurd hg (by decide)
  · subst hc
    refine ⟨hrec, by rw [hs], by rw [hs]; show (1 : Int) ≤ 8; decide, ?_, ?_, ?_, ?_, ?_⟩
    · rw [hs]; show (3.5 * (r.realNumDim : ℚ) : ℚ) ≤ 70 * (r.realNumDim : ℚ)
      norm_num; linarith
    · intro h1
      have h1q : (1 : ℚ) ≤ (r.realNumDim : ℚ) := by exact_mod_cast h1
      rw [hs]; show (3.5 * (r.realNumDim : ℚ) : ℚ) < 70 * (r.realNumDim : ℚ)
      norm_num; linarith
    · intro hg; rcases hg with hg | hg <;> exact absurd hg (by decide)
    · intro _; rw [hs]
    · intro hg; exact absurd hg (by decide)
  · subst hc
    refine ⟨hrec, by rw [hs], by rw [hs]; show (1 : Int) ≤ 8; decide, ?_, ?_, ?_, ?_, ?_⟩
    · rw [hs]; show ((35 : ℚ)) ≤ 1000; norm_num
    · intro _; rw [hs]; show ((35 : ℚ)) < 1000; norm_num
    · intro hg; rcases hg with hg | hg <;> exact absurd hg (by decide)
    · intro hg; exact absurd hg (by decide)
    · intro _; rw [hs]

/-- Witness for C4: "rosengauss" at dimension 4 passes `SampleRange(8, 14, 280)`. -/
theorem sampleRange_arguments_valid_witness :
    ∃ r : RunDetails (Int × ℚ × ℚ),
      GetRunDetails (fun k lo hi => (k, lo, hi)) "rosengauss" 4 = .ok r ∧
      0 ≤ r.realNumDim ∧ r.sampSlice.1 = 8 ∧ r.sampSlice.2.1 ≤ r.sampSlice.2.2 :=
  ⟨_, GetRunDetails_rosengauss _ 4 (by decide) (by decide), by decide,
    (sampleRange_arguments_valid "rosengauss" 4 _
      (GetRunDetails_rosengauss _ 4 (by decide) (by decide)) (by decide)).2.1,
    (sampleRange_arguments_valid "rosengauss" 4 _
      (GetRunDetails_rosengauss _ 4 (by decide) (by decide)) (by decide)).2.2.2.1⟩

/-- C8 fails on the code for "friedmanartificial": that case never assigns the named
result `nRuns`, so `GetRunDetails("friedmanartificial", -1)` returns `nRuns = 0`, which is
neither `defaultNumRuns = 2000` nor at least 1, while the sibling case "rosenunif" returns
2000. -/
theorem friedmanartificial_nRuns_unset {S : Type} (SR : Int → ℚ → ℚ → S) :
    (∃ r : RunDetails S, GetRunDetails SR "friedmanartificial" (-1) = .ok r ∧
      r.nRuns = 0 ∧ r.nRuns ≠ defaultNumRuns ∧ ¬ 1 ≤ r.nRuns) ∧
    (∃ r : RunDetails S, GetRunDetails SR "rosenunif" (-1) = .ok r ∧
      r.nRuns = defaultNumRuns ∧ defaultNumRuns = 2000) :=
  ⟨⟨_, GetRunDetails_friedman SR, rfl, show (0 : Int) ≠ defaultNumRuns by decide,
      show ¬ (1 : Int) ≤ 0 by decide⟩,
    ⟨_, GetRunDetails_rosenunif SR (-1) (by decide) (by decide), rfl, rfl⟩⟩

/-- C9. `GetRunDetails("friedmanartificial", nDimA)` returns normally if and only if
`nDimA = -1`; any explicit dimension, 10 included, ends in the fatal error "artificial has
a fixed number of dimensions".  When it returns, `realNumDim = 10`, the generator has
`NumDim = 10`, and its distribution is uniform with exactly ten lower bounds, all 0, and
exactly ten upper bounds, all 1. -/
theorem friedmanartificial_fixed_dimension {S : Type} (SR : Int → ℚ → ℚ → S) (nDimA : Int) :
    ((∃ r : RunDetails S, GetRunDetails SR "friedmanartificial" nDimA = .ok r) ↔ nDimA = -1) ∧
    (nDimA ≠ -1 → GetRunDetails SR "friedmanartificial" nDimA
      = .error (.fatal "artificial has a fixed number of dimensions")) ∧
    GetRunDetails SR "friedmanartificial" 10
      = .error (.fatal "artificial has a fixed number of dimensions") ∧
    (∀ r : RunDetails S, GetRunDetails SR "friedmanartificial" nDimA = .ok r →
      r.realNumDim = 10 ∧ r.generator.NumDim = 10 ∧
      ∃ mins maxs : List ℚ, r.generator.Dist = .uniform mins maxs ∧
        mins.length = 10 ∧ maxs.length = 10 ∧ (∀ x ∈ mins, x = 0) ∧ (∀ x ∈ maxs, x = 1)) := by
  refine ⟨⟨?_, ?_⟩, GetRunDetails_friedman_fixed SR nDimA,
    GetRunDetails_friedman_fixed SR 10 (by decide), ?_⟩
  · rintro ⟨r, hr⟩
    by_contra hn
    rw [GetRunDetails_friedman_fixed SR nDimA hn] at hr
    exact absurd hr (by simp)
  · rintro rfl
    exact ⟨_, GetRunDetails_friedman SR⟩
  · intro r hr
    by_cases hn : nDimA = -1
    · subst hn
      rw [GetRunDetails_friedman SR] at hr
      cases hr
      refine ⟨rfl, rfl, List.replicate 10 0, List.replicate 10 1, rfl, rfl, rfl, ?_, ?_⟩
      · intro x hx
        exact List.eq_of_mem_replicate hx
      · intro x hx
        exact List.eq_of_mem_replicate hx
    · rw [GetRunDetails_friedman_fixed SR nDimA hn] at hr
      exact absurd hr (by simp)

/-- Witness for C9: the default call returns with dimension 10. -/
theorem friedmanartificial_fixed_dimension_witness :
    ∃ r : RunDetails (Int × ℚ × ℚ),
      GetRunDetails (fun k lo hi => (k, lo, hi)) "friedmanartificial" (-1) = .ok r ∧
      r.realNumDim = 10 ∧ r.generator.NumDim = 10 :=
  ⟨_, GetRunDetails_friedman _,
    ((friedmanartificial_fixed_dimension (fun k lo hi => (k, lo, hi)) (-1)).2.2.2 _
      (GetRunDetails_friedman _)).1,
    ((friedmanartificial_fixed_dimension (fun k lo hi => (k, lo, hi)) (-1)).2.2.2 _
      (GetRunDetails_friedman _)).2.1⟩

/-! ## The claims about `main` -/

theorem main_no_args {S R E : Type} (w : World S R E) (cl : CommandLine) (h : cl.numArgs = 1) :
    main w cl = ([], .aborted (.fatal "Must specify case name")) := by
  unfold main
  rw [if_pos h]

theorem main_config_error {S R E : Type} (w : World S R E) (cl : CommandLine) (a : Abort)
    (h : GetRunDetails w.SampleRange cl.casename cl.setNumDim = .error a) :
    ∃ b, main w cl = ([], .aborted b) := by
  unfold main
  by_cases h1 : cl.numArgs = 1
  · exact ⟨_, by rw [if_pos h1]⟩
  · refine ⟨a, ?_⟩
    rw [if_neg h1]
    simp only [h]

/-- On a returned configuration `main` runs, in order, a prefix of: `MonteCarlo`,
`ErrorInMean`, `MkdirAll`, `Create`, the JSON write, `PrintMses`, `PlotEIM`; the first call
is always made. -/
theorem main_trace {S R E : Type} (w : World S R E) (cl : CommandLine) (r : RunDetails S)
    (hargs : cl.numArgs ≠ 1)
    (h : GetRunDetails w.SampleRange cl.casename cl.setNumDim = .ok r) :
    ∃ (rest : List (Event S R E)) (e : Exit),
      main w cl = (.monteCarlo r.generator r.sampSlice
          (if cl.setNumRuns ≠ -1 then cl.setNumRuns else r.nRuns) :: rest, e) ∧
      ∀ ev ∈ rest,
        (∃ res, ev = .errorInMean res r.ev) ∨
        ev = .mkdirAll (w.Join [w.gopath, "results", "stackmc", cl.casename,
          "dim_" ++ Itoa r.realNumDim,
          "runs_" ++ Itoa (if cl.setNumRuns ≠ -1 then cl.setNumRuns else r.nRuns)]) ∨
        (∃ path, ev = .create path) ∨
        (∃ eims, ev = .writeJson
          { EIMS := eims, SampSlice := r.sampSlice, NumDim := r.realNumDim
            NumRuns := if cl.setNumRuns ≠ -1 then cl.setNumRuns else r.nRuns }) ∨
        (∃ eims, ev = .printMses eims r.sampSlice) ∨
        (∃ eims path, ev = .plotEIM eims r.sampSlice path) := by
  have hd : ¬ r.realNumDim < 0 := by
    have := (GetRunDetails_ok_fields _ _ _ r h).1
    omega
  obtain ⟨generator, sampSlice, nRuns0, trueEv, nDim⟩ := r
  unfold main
  rw [if_neg hargs]
  simp only [h, if_neg hd]
  split
  · exact ⟨[], _, rfl, by simp⟩
  · split
    · exact ⟨_, _, rfl, by simp⟩
    · split
      · exact ⟨_, _, rfl, by simp⟩
      · split
        · exact ⟨_, _, rfl, by simp⟩
        · split
          · simp only [List.cons_append, List.nil_append]
            refine ⟨_, _, rfl, ?_⟩
            intro ev hev
            simp only [List.mem_cons, List.mem_singleton, List.mem_nil_iff, or_false] at hev
            rcases hev with rfl | rfl | rfl | rfl | rfl | rfl
            · exact Or.inl ⟨_, rfl⟩
            · exact Or.inr (Or.inl rfl)
            · exact Or.inr (Or.inr (Or.inl ⟨_, rfl⟩))
            · exact Or.inr (Or.inr (Or.inr (Or.inl ⟨_, rfl⟩)))
            · exact Or.inr (Or.inr (Or.inr (Or.inr (Or.inl ⟨_, rfl⟩))))
            · exact Or.inr (Or.inr (Or.inr (Or.inr (Or.inr ⟨_, _, rfl⟩))))
          · simp only [List.cons_append, List.nil_append]
            refine ⟨_, _, rfl, ?_⟩
            intro ev hev
            simp only [List.mem_cons, List.mem_singleton, List.mem_nil_iff, or_false] at hev
            rcases hev with rfl | rfl | rfl | rfl | rfl | rfl
            · exact Or.inl ⟨_, rfl⟩
            · exact Or.inr (Or.inl rfl)
            · exact Or.inr (Or.inr (Or.inl ⟨_, rfl⟩))
            · exact Or.inr (Or.inr (Or.inr (Or.inl ⟨_, rfl⟩)))
            · exact Or.inr (Or.inr (Or.inr (Or.inr (Or.inl ⟨_, rfl⟩))))
            · exact Or.inr (Or.inr (Or.inr (Or.inr (Or.inr ⟨_, _, rfl⟩))))

/-- C5. `main` calls `helper.MonteCarlo` exactly when a case name was given and
`GetRunDetails` returned; a returned configuration has one of the four recognised case
names and a non-negative dimension.  An unrecognised case name ends the run with a fatal
error before any call, and so does every negative `-dim` other than the default `-1`. -/
theorem monteCarlo_only_after_configuration {S R E : Type} (w : World S R E)
    (cl : CommandLine) :
    ((∃ g s n, Event.monteCarlo g s n ∈ (main w cl).1) ↔
      (cl.numArgs ≠ 1 ∧
        ∃ r, GetRunDetails w.SampleRange cl.casename cl.setNumDim = .ok r)) ∧
    (∀ r, GetRunDetails w.SampleRange cl.casename cl.setNumDim = .ok r →
      cl.casename ∈ recognisedCases ∧ 0 ≤ r.realNumDim) ∧
    (cl.casename ∉ recognisedCases →
      ∃ msg, main w cl = ([], .aborted (.fatal msg))) ∧
    (cl.setNumDim < -1 → ∃ a, main w cl = ([], .aborted a)) := by
  refine ⟨⟨?_, ?_⟩, ?_, ?_, ?_⟩
  · rintro ⟨g, s, n, hmem⟩
    by_cases hargs : cl.numArgs = 1
    · rw [main_no_args w cl hargs] at hmem
      exact absurd hmem (by simp)
    · refine ⟨hargs, ?_⟩
      cases hG : GetRunDetails w.SampleRange cl.casename cl.setNumDim with
      | error a =>
        obtain ⟨b, hb⟩ := main_config_error w cl a hG
        rw [hb] at hmem
        exact absurd hmem (by simp)
      | ok r => exact ⟨r, rfl⟩
  · rintro ⟨hargs, r, hr⟩
    obtain ⟨rest, e, hm, _⟩ := main_trace w cl r hargs hr
    exact ⟨_, _, _, by rw [hm]; exact List.mem_cons_self _ _⟩
  · intro r hr
    exact ⟨GetRunDetails_ok_recognised _ _ _ r hr, (GetRunDetails_ok_fields _ _ _ r hr).1⟩
  · intro hc
    by_cases hargs : cl.numArgs = 1
    · exact ⟨_, main_no_args w cl hargs⟩
    · refine ⟨"Unknown casename", ?_⟩
      unfold main
      rw [if_neg hargs]
      simp only [GetRunDetails_unknown w.SampleRange cl.casename cl.setNumDim hc]
  · intro hd
    cases hG : GetRunDetails w.SampleRange cl.casename cl.setNumDim with
    | error a => exact main_config_error w cl a hG
    | ok r =>
      exfalso
      obtain ⟨h0, _, _, _, hcases⟩ := GetRunDetails_ok_fields _ _ _ r hG
      have he : effectiveDim cl.setNumDim = cl.setNumDim := by
        unfold effectiveDim
        rw [if_neg (by omega)]
      rcases hcases with ⟨_, hdim, _⟩ | ⟨_, hdim, _⟩ | ⟨_, hn, _⟩
      · rw [hdim, he] at h0; omega
      · rw [hdim, he] at h0; omega
      · omega

/-- Once `MonteCarlo` has returned its results, `main` evaluates the error in mean and
creates the result directory; when the directory, the file and the serialisation succeed
it writes the JSON record. -/
theorem main_records {S R E : Type} (w : World S R E) (cl : CommandLine) (r : RunDetails S)
    (hargs : cl.numArgs ≠ 1)
    (h : GetRunDetails w.SampleRange cl.casename cl.setNumDim = .ok r) (results : R)
    (hMC : w.MonteCarlo r.generator r.sampSlice
      (if cl.setNumRuns ≠ -1 then cl.setNumRuns else r.nRuns) = .ok results) :
    Event.errorInMean results r.ev ∈ (main w cl).1 ∧
    Event.mkdirAll (w.Join [w.gopath, "results", "stackmc", cl.casename,
        "dim_" ++ Itoa r.realNumDim,
        "runs_" ++ Itoa (if cl.setNumRuns ≠ -1 then cl.setNumRuns else r.nRuns)])
      ∈ (main w cl).1 ∧
    (w.MkdirAll (w.Join [w.gopath, "results", "stackmc", cl.casename,
        "dim_" ++ Itoa r.realNumDim,
        "runs_" ++ Itoa (if cl.setNumRuns ≠ -1 then cl.setNumRuns else r.nRuns)]) = none →
      w.Create (w.Join [w.Join [w.gopath, "results", "stackmc", cl.casename,
        "dim_" ++ Itoa r.realNumDim,
        "runs_" ++ Itoa (if cl.setNumRuns ≠ -1 then cl.setNumRuns else r.nRuns)],
        "eim_json.txt"]) = none →
      w.MarshalIndent
        { EIMS := w.ErrorInMean results r.ev, SampSlice := r.sampSlice
          NumDim := r.realNumDim
          NumRuns := if cl.setNumRuns ≠ -1 then cl.setNumRuns else r.nRuns } = none →
      Event.writeJson
        { EIMS := w.ErrorInMean results r.ev, SampSlice := r.sampSlice
          NumDim := r.realNumDim
          NumRuns := if cl.setNumRuns ≠ -1 then cl.setNumRuns else r.nRuns }
        ∈ (main w cl).1) := by
  have hd : ¬ r.realNumDim < 0 := by
    have := (GetRunDetails_ok_fields _ _ _ r h).1
    omega
  obtain ⟨generator, sampSlice, nRuns0, trueEv, nDim⟩ := r
  simp only at hMC hd
  refine ⟨?_, ?_, ?_⟩
  · unfold main
    rw [if_neg hargs]
    simp only [h, if_neg hd, hMC]
    split
    · simp
    · split
      · simp
      · split
        · simp
        · split <;> simp
  · unfold main
    rw [if_neg hargs]
    simp only [h, if_neg hd, hMC]
    split
    · simp
    · split
      · simp
      · split
        · simp
        · split <;> simp
  · intro hMk hCr hMa
    unfold main
    rw [if_neg hargs]
    simp only [h, if_neg hd, hMC, hMk, hCr, hMa]
    split <;> simp

/-- C10. On a returned configuration `r`, the trial budget `main` passes to
`helper.MonteCarlo` is the `-runs` value when that is not `-1` and `r.nRuns` otherwise.
When `MonteCarlo` returns, `main` creates the directory whose last element is `runs_<n>`
for that same number, and, the directory and the file created and the record serialised,
writes the JSON record with that same number as `NumRuns`.  The generator, the sample
sweep, the true expectation and the dimension that `main` uses are those of `r`, and `r` is
the same for every value of `-runs`. -/
theorem trial_budget_override {S R E : Type} (w : World S R E) (cl : CommandLine)
    (r : RunDetails S) (hargs : cl.numArgs ≠ 1)
    (h : GetRunDetails w.SampleRange cl.casename cl.setNumDim = .ok r) :
    (cl.setNumRuns ≠ -1 → ∃ rest e,
      main w cl = (.monteCarlo r.generator r.sampSlice cl.setNumRuns :: rest, e)) ∧
    (cl.setNumRuns = -1 → ∃ rest e,
      main w cl = (.monteCarlo r.generator r.sampSlice r.nRuns :: rest, e)) ∧
    (∀ results, w.MonteCarlo r.generator r.sampSlice
        (if cl.setNumRuns ≠ -1 then cl.setNumRuns else r.nRuns) = .ok results →
      Event.errorInMean results r.ev ∈ (main w cl).1 ∧
      Event.mkdirAll (w.Join [w.gopath, "results", "stackmc", cl.casename,
          "dim_" ++ Itoa r.realNumDim,
          "runs_" ++ Itoa (if cl.setNumRuns ≠ -1 then cl.setNumRuns else r.nRuns)])
        ∈ (main w cl).1 ∧
      (w.MkdirAll (w.Join [w.gopath, "results", "stackmc", cl.casename,
          "dim_" ++ Itoa r.realNumDim,
          "runs_" ++ Itoa (if cl.setNumRuns ≠ -1 then cl.setNumRuns else r.nRuns)]) = none →
        w.Create (w.Join [w.Join [w.gopath, "results", "stackmc", cl.casename,
          "dim_" ++ Itoa r.realNumDim,
          "runs_" ++ Itoa (if cl.setNumRuns ≠ -1 then cl.setNumRuns else r.nRuns)],
          "eim_json.txt"]) = none →
        w.MarshalIndent
          { EIMS := w.ErrorInMean results r.ev, SampSlice := r.sampSlice
            NumDim := r.realNumDim
            NumRuns := if cl.setNumRuns ≠ -1 then cl.setNumRuns else r.nRuns } = none →
        Event.writeJson
          { EIMS := w.ErrorInMean results r.ev, SampSlice := r.sampSlice
            NumDim := r.realNumDim
            NumRuns := if cl.setNumRuns ≠ -1 then cl.setNumRuns else r.nRuns }
          ∈ (main w cl).1)) ∧
    (∀ g s n, Event.monteCarlo g s n ∈ (main w cl).1 →
      g = r.generator ∧ s = r.sampSlice ∧
      n = if cl.setNumRuns ≠ -1 then cl.setNumRuns else r.nRuns) ∧
    (∀ j, Event.writeJson j ∈ (main w cl).1 →
      j.NumRuns = (if cl.setNumRuns ≠ -1 then cl.setNumRuns else r.nRuns) ∧
      j.NumDim = r.realNumDim ∧ j.SampSlice = r.sampSlice) ∧
    (∀ path, Event.mkdirAll path ∈ (main w cl).1 →
      path = w.Join [w.gopath, "results", "stackmc", cl.casename,
        "dim_" ++ Itoa r.realNumDim,
        "runs_" ++ Itoa (if cl.setNumRuns ≠ -1 then cl.setNumRuns else r.nRuns)]) ∧
    (∀ res trueEv, Event.errorInMean res trueEv ∈ (main w cl).1 → trueEv = r.ev) ∧
    (∀ k : Int, GetRunDetails w.SampleRange
        ({ cl with setNumRuns := k }).casename ({ cl with setNumRuns := k }).setNumDim
      = .ok r) := by
  obtain ⟨rest, e, hm, hrest⟩ := main_trace w cl r hargs h
  refine ⟨?_, ?_, fun results hMC => main_records w cl r hargs h results hMC,
    ?_, ?_, ?_, ?_, fun _ => h⟩
  · intro hr
    rw [if_pos hr] at hm
    exact ⟨rest, e, hm⟩
  · intro hr
    rw [if_neg (by simpa using hr)] at hm
    exact ⟨rest, e, hm⟩
  · intro g s n hmem
    rw [hm] at hmem
    rcases List.mem_cons.1 hmem with heq | hmem
    · cases heq
      exact ⟨rfl, rfl, rfl⟩
    · rcases hrest _ hmem with ⟨_, hx⟩ | hx | ⟨_, hx⟩ | ⟨_, hx⟩ | ⟨_, hx⟩ | ⟨_, _, hx⟩ <;>
        cases hx
  · intro j hmem
    rw [hm] at hmem
    rcases List.mem_cons.1 hmem with heq | hmem
    · cases heq
    · rcases hrest _ hmem with ⟨_, hx⟩ | hx | ⟨_, hx⟩ | ⟨_, hx⟩ | ⟨_, hx⟩ | ⟨_, _, hx⟩ <;>
        cases hx
      exact ⟨rfl, rfl, rfl⟩
  · intro path hmem
    rw [hm] at hmem
    rcases List.mem_cons.1 hmem with heq | hmem
    · cases heq
    · rcases hrest _ hmem with ⟨_, hx⟩ | hx | ⟨_, hx⟩ | ⟨_, hx⟩ | ⟨_, hx⟩ | ⟨_, _, hx⟩ <;>
        cases hx
      rfl
  · intro res trueEv hmem
    rw [hm] at hmem
    rcases List.mem_cons.1 hmem with heq | hmem
    · cases heq
    · rcases hrest _ hmem with ⟨_, hx⟩ | hx | ⟨_, hx⟩ | ⟨_, hx⟩ | ⟨_, hx⟩ | ⟨_, _, hx⟩ <;>
        cases hx
      rfl

/-- Witness for C10: "rosenunif" with `-runs 50` in a world where every collaborator
succeeds; `MonteCarlo` is called with the budget 50, and the JSON record with
`NumRuns = 50` is written. -/
theorem trial_budget_override_witness :
    ∃ r : RunDetails (Int × ℚ × ℚ),
      GetRunDetails (fun k lo hi => (k, lo, hi)) "rosenunif" (-1) = .ok r ∧
      (∃ rest e, main successWorld
        { numArgs := 5, casename := "rosenunif", setNumDim := -1, setNumRuns := 50 }
        = (.monteCarlo r.generator r.sampSlice 50 :: rest, e)) ∧
      (Event.writeJson { EIMS := 50, SampSlice := r.sampSlice, NumDim := 10, NumRuns := 50 } :
          Event (Int × ℚ × ℚ) Int Int)
        ∈ (main successWorld
          { numArgs := 5, casename := "rosenunif", setNumDim := -1, setNumRuns := 50 }).1 := by
  have hw := trial_budget_override successWorld
    { numArgs := 5, casename := "rosenunif", setNumDim := -1, setNumRuns := 50 } _
    (by decide) (GetRunDetails_rosenunif _ (-1) (by decide) (by decide))
  exact ⟨_, GetRunDetails_rosenunif _ (-1) (by decide) (by decide), hw.1 (by decide),
    (hw.2.2.1 50 rfl).2.2 rfl rfl rfl⟩

/-! ## The claims about the fold partitioner and the fold combination -/

theorem takeFolds_flatten (sizes xs : List Nat) :
    (takeFolds sizes xs).flatten = xs.take sizes.sum := by
  induction sizes generalizing xs with
  | nil => simp [takeFolds]
  | cons s sizes ih =>
    simp only [takeFolds, List.flatten_cons, List.sum_cons, ih, List.take_add]

theorem takeFolds_lengths (sizes xs : List Nat) (h : sizes.sum ≤ xs.length) :
    (takeFolds sizes xs).map List.length = sizes := by
  induction sizes generalizing xs with
  | nil => simp [takeFolds]
  | cons s sizes ih =>
    simp only [List.sum_cons] at h
    simp only [takeFolds, List.map_cons, List.length_take]
    rw [ih (xs.drop s) (by rw [List.length_drop]; omega), Nat.min_eq_left (by omega)]

theorem sum_foldSize_range (q r k : Nat) :
    ((List.range k).map (fun i => q + (if i < r then 1 else 0))).sum = k * q + min r k := by
  induction k with
  | zero => simp
  | succ k ih =>
    rw [List.range_succ, List.map_append, List.sum_append, ih]
    simp only [List.map_cons, List.map_nil, List.sum_cons, List.sum_nil]
    split_ifs with hk
    · rw [Nat.min_eq_right (by omega), Nat.min_eq_right (by omega)]; ring
    · rw [Nat.min_eq_left (by omega), Nat.min_eq_left (by omega)]; ring

theorem countP_lt_range (r k : Nat) :
    (List.range k).countP (fun i => decide (i < r)) = min r k := by
  induction k with
  | zero => simp
  | succ k ih =>
    rw [List.range_succ, List.countP_append, ih]
    simp only [List.countP_cons, List.countP_nil]
    split_ifs with hk
    · have : k < r := by simpa using hk
      omega
    · have : ¬ k < r := by simpa using hk
      omega

theorem sum_foldSizes (N K : Nat) (hK : 0 < K) :
    ((List.range K).map (foldSize N K)).sum = N := by
  have h := sum_foldSize_range (N / K) (N % K) K
  have hlt : N % K < K := Nat.mod_lt N hK
  rw [Nat.min_eq_left (Nat.le_of_lt hlt)] at h
  have hfun : foldSize N K = fun i => N / K + (if i < N % K then 1 else 0) := by
    funext i; rfl
  rw [hfun, h]
  exact Nat.div_add_mod N K

theorem ceil_div_eq (N K : Nat) (hK : 0 < K) :
    (N + K - 1) / K = N / K + (if N % K = 0 then 0 else 1) := by
  have hN := Nat.div_add_mod N K
  have hlt : N % K < K := Nat.mod_lt N hK
  have hmul : N / K * K = K * (N / K) := Nat.mul_comm _ _
  split_ifs with h0
  · apply Nat.div_eq_of_lt_le
    · rw [Nat.add_zero, hmul]; omega
    · rw [Nat.add_zero, Nat.succ_mul, hmul]; omega
  · apply Nat.div_eq_of_lt_le
    · rw [Nat.add_mul, Nat.one_mul, hmul]; omega
    · rw [Nat.succ_mul, Nat.add_mul, Nat.one_mul, hmul]; omega

/-- C6. For all `N ≥ K ≥ 2` and every shuffle of the indices `[0, N)`, `partition(N, K)`
returns `K` folds; the folds together are a rearrangement of `[0, N)`, so each index below
`N` occurs exactly once over all folds and no other index occurs; each fold has `⌊N/K⌋` or
`⌈N/K⌉` elements; exactly `N mod K` folds have `⌊N/K⌋ + 1` elements, the larger size; and
any two fold sizes differ by at most 1. -/
theorem partition_exact_cover_balanced (N K : Nat) (shuffle : List Nat)
    (hperm : shuffle.Perm (List.range N)) (hK : 2 ≤ K) (hKN : K ≤ N) :
    ∃ folds, partition N K shuffle = .ok folds ∧
      folds.length = K ∧
      folds.flatten.Perm (List.range N) ∧
      (∀ i, i < N → (folds.map (List.count i)).sum = 1) ∧
      (∀ i, N ≤ i → (folds.map (List.count i)).sum = 0) ∧
      (∀ f ∈ folds, f.length = N / K ∨ f.length = (N + K - 1) / K) ∧
      folds.countP (fun f => decide (f.length = N / K + 1)) = N % K ∧
      (N + K - 1) / K ≤ N / K + 1 ∧
      (∀ f ∈ folds, ∀ g ∈ folds, f.length ≤ g.length + 1) := by
  have hK0 : 0 < K := by omega
  have hlen : shuffle.length = N := by rw [hperm.length_eq, List.length_range]
  have hsum := sum_foldSizes N K hK0
  have hflat : (takeFolds ((List.range K).map (foldSize N K)) shuffle).flatten = shuffle := by
    rw [takeFolds_flatten, hsum, ← hlen, List.take_length]
  have hlens : (takeFolds ((List.range K).map (foldSize N K)) shuffle).map List.length
      = (List.range K).map (foldSize N K) :=
    takeFolds_lengths _ _ (by rw [hsum, hlen])
  have hceil := ceil_div_eq N K hK0
  have hsize : ∀ f ∈ takeFolds ((List.range K).map (foldSize N K)) shuffle,
      ∃ i, i < K ∧ f.length = foldSize N K i := by
    intro f hf
    have hmem : f.length ∈ (takeFolds ((List.range K).map (foldSize N K)) shuffle).map
        List.length := List.mem_map_of_mem _ hf
    rw [hlens] at hmem
    obtain ⟨i, hi, hfi⟩ := List.mem_map.1 hmem
    exact ⟨i, List.mem_range.1 hi, hfi.symm⟩
  refine ⟨takeFolds ((List.range K).map (foldSize N K)) shuffle, ?_, ?_, ?_, ?_, ?_, ?_, ?_,
    ?_, ?_⟩
  · unfold partition
    rw [if_neg (by omega)]
  · have := congrArg List.length hlens
    simpa using this
  · rw [hflat]; exact hperm
  · intro i hi
    rw [← List.count_flatten, hflat, hperm.count_eq]
    exact List.count_eq_one_of_mem (List.nodup_range N) (List.mem_range.2 hi)
  · intro i hi
    rw [← List.count_flatten, hflat, hperm.count_eq]
    exact List.count_eq_zero_of_not_mem (by simp; omega)
  · intro f hf
    obtain ⟨i, _, hfi⟩ := hsize f hf
    rw [hfi, hceil]
    unfold foldSize
    split_ifs <;> omega
  · have hc : List.countP (fun f : List Nat => decide (f.length = N / K + 1))
          (takeFolds ((List.range K).map (foldSize N K)) shuffle)
        = List.countP (fun n => decide (n = N / K + 1))
          ((takeFolds ((List.range K).map (foldSize N K)) shuffle).map List.length) := by
      rw [List.countP_map]; rfl
    rw [hc, hlens, List.countP_map]
    have hfun : ((fun n => decide (n = N / K + 1)) ∘ foldSize N K)
        = fun i => decide (i < N % K) := by
      funext i
      simp only [Function.comp, foldSize]
      split_ifs with h <;> simp [h]
    rw [hfun, countP_lt_range, Nat.min_eq_left (Nat.le_of_lt (Nat.mod_lt N hK0))]
  · rw [hceil]; split_ifs <;> omega
  · intro f hf g hg
    obtain ⟨i, _, hfi⟩ := hsize f hf
    obtain ⟨j, _, hgj⟩ := hsize g hg
    rw [hfi, hgj]
    unfold foldSize
    split_ifs <;> omega

/-- Witness for C6: seven indices in three folds. -/
theorem partition_exact_cover_balanced_witness :
    ∃ folds, partition 7 3 [4, 0, 6, 2, 5, 1, 3] = .ok folds ∧ folds.length = 3 ∧
      folds.countP (fun f => decide (f.length = 7 / 3 + 1)) = 7 % 3 := by
  obtain ⟨folds, h, hl, _, _, _, _, hc, _⟩ :=
    partition_exact_cover_balanced 7 3 [4, 0, 6, 2, 5, 1, 3] (by decide) (by decide) (by decide)
  exact ⟨folds, h, hl, hc⟩

/-- C7. For non-empty folds, whatever their estimates, the total held-out count is
positive and the combined estimate is the average of the fold estimates weighted by the
held-out sample counts: multiplied by the total count it is the count-weighted sum of the
fold estimates.  In particular, if all folds report the same estimate `v`, the combined
estimate is `v`, whatever the fold sizes. -/
theorem combine_weighted_average (folds : List FoldEstimate) (hne : folds ≠ [])
    (hsize : ∀ f ∈ folds, 0 < f.heldOut) :
    0 < (folds.map (fun f => (f.heldOut : ℚ))).sum ∧
    combine folds * (folds.map (fun f => (f.heldOut : ℚ))).sum
      = (folds.map (fun f => (f.heldOut : ℚ) * f.estimate)).sum ∧
    ∀ v : ℚ, (∀ f ∈ folds, f.estimate = v) → combine folds = v := by
  have hpos : 0 < (folds.map (fun f => (f.heldOut : ℚ))).sum := by
    cases folds with
    | nil => exact absurd rfl hne
    | cons f fs =>
      simp only [List.map_cons, List.sum_cons]
      have h1 : (0 : ℚ) < (f.heldOut : ℚ) := by exact_mod_cast hsize f (List.mem_cons_self _ _)
      have h2 : (0 : ℚ) ≤ (fs.map (fun f => (f.heldOut : ℚ))).sum :=
        List.sum_nonneg (by
          intro x hx
          obtain ⟨g, _, rfl⟩ := List.mem_map.1 hx
          exact Nat.cast_nonneg _)
      linarith
  refine ⟨hpos, ?_, ?_⟩
  · unfold combine
    field_simp
  · intro v hv
    have hnum : (folds.map (fun f => (f.heldOut : ℚ) * f.estimate)).sum
        = (folds.map (fun f => (f.heldOut : ℚ))).sum * v := by
      rw [← List.sum_map_mul_right]
      congr 1
      apply List.map_congr_left
      intro f hf
      rw [hv f hf]
    unfold combine
    rw [hnum]
    field_simp

/-- Witness for C7: folds of sizes 1 and 9 reporting 0 and 10 combine to 9, and folds of
sizes 3, 4, 4 that all report 5 combine to 5. -/
theorem combine_weighted_average_witness :
    combine [⟨0, 1⟩, ⟨10, 9⟩] = 9 ∧ combine [⟨5, 3⟩, ⟨5, 4⟩, ⟨5, 4⟩] = 5 := by
  have h := (combine_weighted_average [⟨0, 1⟩, ⟨10, 9⟩] (by decide) (by decide)).2.1
  have h5 := (combine_weighted_average [⟨5, 3⟩, ⟨5, 4⟩, ⟨5, 4⟩] (by decide) (by decide)).2.2 5
    (by decide)
  refine ⟨?_, h5⟩
  norm_num at h
  linarith

/-! ## The true expectation of the Rosenbrock cases -/

section Expectation

open MeasureTheory ProbabilityTheory

theorem integral_pi_prod {ι : Type} [Fintype ι] (μ : Measure ℝ) [SigmaFinite μ]
    (f : ι → ℝ → ℝ) :
    ∫ x, ∏ i, f i (x i) ∂(Measure.pi fun _ : ι => μ) = ∏ i, ∫ t, f i t ∂μ :=
  @MeasureTheory.integral_fintype_prod_eq_prod ℝ _ ι _ (fun _ => ℝ) f (fun _ => ⟨μ⟩)
    (fun _ => inferInstanceAs (SigmaFinite μ))

theorem integrable_pi_prod {ι : Type} [Fintype ι] (μ : Measure ℝ) [SigmaFinite μ]
    (f : ι → ℝ → ℝ) (hf : ∀ i, Integrable (f i) μ) :
    Integrable (fun x : ι → ℝ => ∏ i, f i (x i)) (Measure.pi fun _ : ι => μ) :=
  @MeasureTheory.Integrable.fintype_prod ℝ _ ι _ ℝ f ⟨μ⟩ (inferInstanceAs (SigmaFinite μ)) hf

theorem prod_pair_fun {ι : Type} [Fintype ι] [DecidableEq ι] {i j : ι} (hij : i ≠ j)
    (a b : ℝ) :
    ∏ k : ι, (if k = i then a else if k = j then b else 1) = a * b := by
  rw [Finset.prod_eq_mul i j hij]
  · simp [hij.symm]
  · intro c _ hc
    simp [hc.1, hc.2]
  · intro h; exact absurd (Finset.mem_univ i) h
  · intro h; exact absurd (Finset.mem_univ j) h

theorem prod_pair_eval {ι : Type} [Fintype ι] [DecidableEq ι] {i j : ι} (hij : i ≠ j)
    (f g : ℝ → ℝ) (x : ι → ℝ) :
    ∏ k, (if k = i then f else if k = j then g else fun _ => (1 : ℝ)) (x k)
      = f (x i) * g (x j) := by
  rw [← prod_pair_fun hij (f (x i)) (g (x j))]
  refine Finset.prod_congr rfl (fun k _ => ?_)
  by_cases h1 : k = i
  · subst h1; simp
  · by_cases h2 : k = j
    · subst h2; simp [h1]
    · simp [h1, h2]

theorem integral_pi_pair {ι : Type} [Fintype ι] [DecidableEq ι] (μ : Measure ℝ)
    [IsProbabilityMeasure μ] {i j : ι} (hij : i ≠ j) (f g : ℝ → ℝ) :
    ∫ x, f (x i) * g (x j) ∂(Measure.pi fun _ : ι => μ) = (∫ t, f t ∂μ) * ∫ t, g t ∂μ := by
  have h := integral_pi_prod μ
    (fun k : ι => if k = i then f else if k = j then g else fun _ => 1)
  have hL := prod_pair_eval hij f g
  have hR : ∏ k, ∫ t, (if k = i then f else if k = j then g else fun _ => (1 : ℝ)) t ∂μ
      = (∫ t, f t ∂μ) * ∫ t, g t ∂μ := by
    rw [← prod_pair_fun hij (∫ t, f t ∂μ) (∫ t, g t ∂μ)]
    refine Finset.prod_congr rfl (fun k _ => ?_)
    by_cases h1 : k = i
    · subst h1; simp
    · by_cases h2 : k = j
      · subst h2; simp [h1]
      · simp [h1, h2]
  simp only [hL] at h
  rw [h, hR]

theorem integrable_pi_pair {ι : Type} [Fintype ι] [DecidableEq ι] (μ : Measure ℝ)
    [IsProbabilityMeasure μ] {i j : ι} (hij : i ≠ j) (f g : ℝ → ℝ)
    (hf : Integrable f μ) (hg : Integrable g μ) :
    Integrable (fun x : ι → ℝ => f (x i) * g (x j)) (Measure.pi fun _ : ι => μ) := by
  have h := integrable_pi_prod μ
    (fun k : ι => if k = i then f else if k = j then g else fun _ => 1)
    (by
      intro k
      by_cases h1 : k = i
      · subst h1; simpa using hf
      · by_cases h2 : k = j
        · subst h2; simp [h1, hg]
        · simp [h1, h2])
  have hL := prod_pair_eval hij f g
  simpa only [hL] using h

theorem integral_rosenbrock_pi (μ : Measure ℝ) [IsProbabilityMeasure μ] (n : Nat)
    (h1 : Integrable (fun t : ℝ => t) μ) (h2 : Integrable (fun t : ℝ => t ^ 2) μ)
    (h4 : Integrable (fun t : ℝ => t ^ 4) μ) :
    Integrable (fun x : Fin (n + 1) → ℝ => rosenbrock x) (Measure.pi fun _ => μ) ∧
    ∫ x : Fin (n + 1) → ℝ, rosenbrock x ∂(Measure.pi fun _ => μ)
      = n * (100 * ((∫ t, t ^ 2 ∂μ) - 2 * (∫ t, t ∂μ) * (∫ t, t ^ 2 ∂μ) + ∫ t, t ^ 4 ∂μ)
          + (1 - 2 * (∫ t, t ∂μ) + ∫ t, t ^ 2 ∂μ)) := by
  have hc : ∀ c : ℝ, Integrable (fun _ : ℝ => c) μ := fun c => integrable_const c
  have hA : Integrable (fun t : ℝ => 100 * t ^ 4) μ := h4.const_mul 100
  have hB : Integrable (fun t : ℝ => 100 * t ^ 4 + t ^ 2) μ := hA.add h2
  have hC : Integrable (fun t : ℝ => 2 * t) μ := h1.const_mul 2
  have hD : Integrable (fun t : ℝ => 100 * t ^ 4 + t ^ 2 - 2 * t) μ := hB.sub hC
  have hP1 : Integrable (fun t : ℝ => 100 * t ^ 4 + t ^ 2 - 2 * t + 1) μ := hD.add (hc 1)
  have hP2 : Integrable (fun t : ℝ => -200 * t ^ 2) μ := h2.const_mul (-200)
  have iP1 : ∫ t, (100 * t ^ 4 + t ^ 2 - 2 * t + 1) ∂μ
      = 100 * (∫ t, t ^ 4 ∂μ) + (∫ t, t ^ 2 ∂μ) - 2 * (∫ t, t ∂μ) + 1 := by
    rw [integral_add hD (hc 1), integral_sub hB hC, integral_add hA h2, integral_mul_left,
      integral_mul_left]
    simp
  have iP2 : ∫ t, (-200 * t ^ 2) ∂μ = -200 * ∫ t, t ^ 2 ∂μ := integral_mul_left _ _
  have hterm : ∀ (i : Fin n) (x : Fin (n + 1) → ℝ),
      100 * (x i.succ - x i.castSucc ^ 2) ^ 2 + (1 - x i.castSucc) ^ 2
        = (100 * x i.castSucc ^ 4 + x i.castSucc ^ 2 - 2 * x i.castSucc + 1) * 1
          + (-200 * x i.castSucc ^ 2) * x i.succ + 100 * x i.succ ^ 2 := by
    intro i x; ring
  have hne : ∀ i : Fin n, i.castSucc ≠ i.succ := fun i => (Fin.castSucc_lt_succ i).ne
  have hI1 : ∀ i : Fin n, Integrable (fun x : Fin (n + 1) → ℝ =>
      (100 * x i.castSucc ^ 4 + x i.castSucc ^ 2 - 2 * x i.castSucc + 1) * 1)
      (Measure.pi fun _ => μ) := fun i =>
    integrable_pi_pair μ (hne i) (fun t => 100 * t ^ 4 + t ^ 2 - 2 * t + 1) (fun _ => 1)
      hP1 (hc 1)
  have hI2 : ∀ i : Fin n, Integrable (fun x : Fin (n + 1) → ℝ =>
      (-200 * x i.castSucc ^ 2) * x i.succ) (Measure.pi fun _ => μ) := fun i =>
    integrable_pi_pair μ (hne i) (fun t => -200 * t ^ 2) (fun t => t) hP2 h1
  have hI3 : ∀ i : Fin n, Integrable (fun x : Fin (n + 1) → ℝ =>
      100 * x i.succ ^ 2) (Measure.pi fun _ => μ) := fun i =>
    integrable_pi_pair μ (hne i) (fun _ => 100) (fun t => t ^ 2) (hc 100) h2
  have hIt : ∀ i : Fin n, Integrable (fun x : Fin (n + 1) → ℝ =>
      100 * (x i.succ - x i.castSucc ^ 2) ^ 2 + (1 - x i.castSucc) ^ 2)
      (Measure.pi fun _ => μ) := by
    intro i
    simp only [hterm i]
    exact ((hI1 i).add (hI2 i)).add (hI3 i)
  have hval : ∀ i : Fin n, ∫ x : Fin (n + 1) → ℝ,
      (100 * (x i.succ - x i.castSucc ^ 2) ^ 2 + (1 - x i.castSucc) ^ 2)
        ∂(Measure.pi fun _ => μ)
      = 100 * ((∫ t, t ^ 2 ∂μ) - 2 * (∫ t, t ∂μ) * (∫ t, t ^ 2 ∂μ) + ∫ t, t ^ 4 ∂μ)
          + (1 - 2 * (∫ t, t ∂μ) + ∫ t, t ^ 2 ∂μ) := by
    intro i
    simp only [hterm i]
    have hI12 : Integrable (fun x : Fin (n + 1) → ℝ =>
        (100 * x i.castSucc ^ 4 + x i.castSucc ^ 2 - 2 * x i.castSucc + 1) * 1
          + (-200 * x i.castSucc ^ 2) * x i.succ) (Measure.pi fun _ => μ) :=
      (hI1 i).add (hI2 i)
    rw [integral_add hI12 (hI3 i), integral_add (hI1 i) (hI2 i),
      integral_pi_pair μ (hne i) (fun t => 100 * t ^ 4 + t ^ 2 - 2 * t + 1) (fun _ => 1),
      integral_pi_pair μ (hne i) (fun t => -200 * t ^ 2) (fun t => t),
      integral_pi_pair μ (hne i) (fun _ => 100) (fun t => t ^ 2), iP1, iP2]
    simp only [integral_const, measure_univ, ENNReal.one_toReal, smul_eq_mul, one_mul]
    ring
  constructor
  · unfold rosenbrock
    exact integrable_finset_sum _ (fun i _ => hIt i)
  · unfold rosenbrock
    rw [integral_finset_sum _ (fun i _ => hIt i)]
    simp only [hval, Finset.sum_const, Finset.card_univ, Fintype.card_fin, nsmul_eq_mul]

theorem uniformMeasure_isProbability {a b : ℝ} (hab : a < b) :
    IsProbabilityMeasure (uniformMeasure a b) := by
  constructor
  unfold uniformMeasure
  rw [Measure.smul_apply, Measure.restrict_apply MeasurableSet.univ, Set.univ_inter,
    Real.volume_Icc, smul_eq_mul]
  exact ENNReal.inv_mul_cancel (by simp [hab]) ENNReal.ofReal_ne_top

theorem integrable_uniformMeasure {a b : ℝ} (hab : a < b) (f : ℝ → ℝ) (hf : Continuous f) :
    Integrable f (uniformMeasure a b) := by
  unfold uniformMeasure
  apply Integrable.smul_measure
  · exact hf.integrableOn_Icc
  · simp [hab]

theorem integral_uniformMeasure {a b : ℝ} (hab : a < b) (f : ℝ → ℝ) :
    ∫ t, f t ∂(uniformMeasure a b) = (b - a)⁻¹ * ∫ t in a..b, f t := by
  unfold uniformMeasure
  rw [integral_smul_measure, intervalIntegral.integral_of_le hab.le,
    integral_Icc_eq_integral_Ioc, ENNReal.toReal_inv,
    ENNReal.toReal_ofReal (by linarith), smul_eq_mul]

theorem uniform_moments :
    (∫ t, t ∂(uniformMeasure (-3) 3) = 0) ∧
    (∫ t, t ^ 2 ∂(uniformMeasure (-3) 3) = 3) ∧
    (∫ t, t ^ 4 ∂(uniformMeasure (-3) 3) = 81 / 5) := by
  have h : (-3 : ℝ) < 3 := by norm_num
  refine ⟨?_, ?_, ?_⟩
  · rw [integral_uniformMeasure h, integral_id]; norm_num
  · rw [integral_uniformMeasure h, integral_pow]; norm_num
  · rw [integral_uniformMeasure h, integral_pow]; norm_num

theorem halfLine_gauss (k : Nat) :
    ∫ x in Set.Ioi (0 : ℝ), x ^ k * Real.exp (-(1 / 8) * x ^ 2)
      = (1 / 8 : ℝ) ^ (-((k : ℝ) + 1) / 2) * (1 / 2) * Real.Gamma (((k : ℝ) + 1) / 2) := by
  have h := @integral_rpow_mul_exp_neg_mul_rpow 2 (k : ℝ) (1 / 8) (by norm_num)
    (by have : (0 : ℝ) ≤ (k : ℝ) := Nat.cast_nonneg k
        linarith) (by norm_num)
  simp only [Real.rpow_natCast, Real.rpow_two] at h
  exact h

theorem halfLine_gauss_step (k : Nat) :
    ∫ x in Set.Ioi (0 : ℝ), x ^ (k + 2) * Real.exp (-(1 / 8) * x ^ 2)
      = 4 * ((k : ℝ) + 1) * ∫ x in Set.Ioi (0 : ℝ), x ^ k * Real.exp (-(1 / 8) * x ^ 2) := by
  rw [halfLine_gauss, halfLine_gauss]
  have hk : (0 : ℝ) ≤ (k : ℝ) := Nat.cast_nonneg k
  have e1 : (((k + 2 : Nat) : ℝ) + 1) / 2 = ((k : ℝ) + 1) / 2 + 1 := by
    push_cast; ring
  have e2 : -(((k + 2 : Nat) : ℝ) + 1) / 2 = -((k : ℝ) + 1) / 2 + (-1) := by
    push_cast; ring
  rw [e1, e2, Real.Gamma_add_one (by positivity), Real.rpow_add (by norm_num),
    Real.rpow_neg_one]
  ring

theorem fullLine_gauss_even (m : Nat) :
    ∫ x : ℝ, x ^ (2 * m) * Real.exp (-(1 / 8) * x ^ 2)
      = 2 * ∫ x in Set.Ioi (0 : ℝ), x ^ (2 * m) * Real.exp (-(1 / 8) * x ^ 2) := by
  have h := @integral_comp_abs (fun t => t ^ (2 * m) * Real.exp (-(1 / 8) * t ^ 2))
  simp only [pow_mul, sq_abs] at h
  simpa only [pow_mul] using h

theorem gaussianPDFReal_zero_four (x : ℝ) :
    gaussianPDFReal 0 4 x = (√(2 * Real.pi * 4))⁻¹ * Real.exp (-(1 / 8) * x ^ 2) := by
  unfold gaussianPDFReal
  have h4 : ((4 : NNReal) : ℝ) = 4 := by norm_num
  rw [h4]
  congr 2
  ring

theorem integral_gaussianReal_zero_four (f : ℝ → ℝ) :
    ∫ t, f t ∂(gaussianReal 0 4)
      = (√(2 * Real.pi * 4))⁻¹ * ∫ t, f t * Real.exp (-(1 / 8) * t ^ 2) := by
  rw [gaussianReal_of_var_ne_zero 0 (by norm_num : (4 : NNReal) ≠ 0)]
  have h := @integral_withDensity_eq_integral_smul ℝ ℝ _ volume _ _
    (fun x => (gaussianPDFReal 0 4 x).toNNReal)
    (measurable_gaussianPDFReal 0 4).real_toNNReal f
  have hd : (fun x => ((gaussianPDFReal 0 4 x).toNNReal : ENNReal)) = gaussianPDF 0 4 := rfl
  rw [hd] at h
  rw [h, ← integral_mul_left]
  congr 1
  funext t
  rw [NNReal.smul_def, Real.coe_toNNReal _ (gaussianPDFReal_nonneg 0 4 t), smul_eq_mul,
    gaussianPDFReal_zero_four]
  ring

theorem integrable_pow_gauss (k : Nat) :
    Integrable (fun t : ℝ => t ^ k * Real.exp (-(1 / 8) * t ^ 2)) := by
  have h := @integrable_rpow_mul_exp_neg_mul_sq (1 / 8) (by norm_num) (k : ℝ)
    (by have : (0 : ℝ) ≤ (k : ℝ) := Nat.cast_nonneg k
        linarith)
  simpa only [Real.rpow_natCast] using h

theorem integrable_pow_gaussianReal (k : Nat) :
    Integrable (fun t : ℝ => t ^ k) (gaussianReal 0 4) := by
  rw [gaussianReal_of_var_ne_zero 0 (by norm_num : (4 : NNReal) ≠ 0)]
  have hd : (fun x => ((gaussianPDFReal 0 4 x).toNNReal : ENNReal)) = gaussianPDF 0 4 := rfl
  rw [← hd, integrable_withDensity_iff_integrable_smul
    (measurable_gaussianPDFReal 0 4).real_toNNReal]
  have h := (integrable_pow_gauss k).const_mul ((√(2 * Real.pi * 4))⁻¹)
  refine h.congr (Filter.Eventually.of_forall (fun t => ?_))
  beta_reduce
  rw [NNReal.smul_def, Real.coe_toNNReal _ (gaussianPDFReal_nonneg 0 4 t), smul_eq_mul,
    gaussianPDFReal_zero_four]
  ring

theorem gauss_norm :
    (√(2 * Real.pi * 4))⁻¹ * ∫ t : ℝ, Real.exp (-(1 / 8) * t ^ 2) = 1 := by
  have h := integral_gaussianPDFReal_eq_one 0 (by norm_num : (4 : NNReal) ≠ 0)
  simp only [gaussianPDFReal_zero_four] at h
  rw [integral_mul_left] at h
  exact h

theorem gaussian_moments :
    (∫ t, t ∂(gaussianReal 0 4) = 0) ∧
    (∫ t, t ^ 2 ∂(gaussianReal 0 4) = 4) ∧
    (∫ t, t ^ 4 ∂(gaussianReal 0 4) = 48) := by
  have hJ0 : ∫ t : ℝ, Real.exp (-(1 / 8) * t ^ 2)
      = 2 * ∫ x in Set.Ioi (0 : ℝ), x ^ 0 * Real.exp (-(1 / 8) * x ^ 2) := by
    have h := fullLine_gauss_even 0
    simpa using h
  have hJ1 : ∫ t : ℝ, t ^ 2 * Real.exp (-(1 / 8) * t ^ 2)
      = 2 * ∫ x in Set.Ioi (0 : ℝ), x ^ 2 * Real.exp (-(1 / 8) * x ^ 2) := by
    have h := fullLine_gauss_even 1
    simpa using h
  have hJ2 : ∫ t : ℝ, t ^ 4 * Real.exp (-(1 / 8) * t ^ 2)
      = 2 * ∫ x in Set.Ioi (0 : ℝ), x ^ 4 * Real.exp (-(1 / 8) * x ^ 2) := by
    have h := fullLine_gauss_even 2
    simpa using h
  have s0 := halfLine_gauss_step 0
  have s2 := halfLine_gauss_step 2
  have hn := gauss_norm
  rw [hJ0] at hn
  refine ⟨?_, ?_, ?_⟩
  · rw [integral_gaussianReal_zero_four]
    have hodd := integral_neg_eq_self (fun t : ℝ => t * Real.exp (-(1 / 8) * t ^ 2)) volume
    simp only [neg_sq, neg_mul, integral_neg] at hodd
    have : ∫ t : ℝ, t * Real.exp (-(1 / 8) * t ^ 2) = 0 := by
      simp only [neg_mul]
      linarith
    rw [this, mul_zero]
  · rw [integral_gaussianReal_zero_four, hJ1, s0]
    norm_num at hn ⊢
    linear_combination 4 * hn
  · rw [integral_gaussianReal_zero_four, hJ2, s2, s0]
    norm_num at hn ⊢
    linear_combination 48 * hn

theorem getD_replicate_lt (a : ℚ) (k i : Nat) (h : i < k) :
    (List.replicate k a).getD i 0 = a := by
  rw [List.getD_eq_getElem?_getD, List.getElem?_replicate, if_pos h]
  rfl

theorem law_uniform_replicate (n : Nat) :
    (Distribution.uniform (List.replicate (n + 1) (-3)) (List.replicate (n + 1) 3)).law (n + 1)
      = Measure.pi fun _ : Fin (n + 1) => uniformMeasure (-3) 3 := by
  simp only [Distribution.law]
  congr 1
  funext i
  rw [getD_replicate_lt _ _ _ i.isLt, getD_replicate_lt _ _ _ i.isLt]
  norm_num

theorem law_gaussian_replicate (n : Nat) :
    (Distribution.independentGaussian (List.replicate (n + 1) 0)
        (List.replicate (n + 1) 2)).law (n + 1)
      = Measure.pi fun _ : Fin (n + 1) => gaussianReal 0 4 := by
  simp only [Distribution.law]
  congr 1
  funext i
  rw [getD_replicate_lt _ _ _ i.isLt, getD_replicate_lt _ _ _ i.isLt]
  have h : Real.toNNReal ((((2 : ℚ) : ℝ)) ^ 2) = 4 := by
    rw [show (((2 : ℚ) : ℝ)) ^ 2 = ((4 : NNReal) : ℝ) by norm_num, Real.toNNReal_coe]
  rw [h]
  norm_num

theorem rosenbrock_uniform (n : Nat) :
    Integrable (fun x : Fin (n + 1) → ℝ => rosenbrock x)
      (Measure.pi fun _ : Fin (n + 1) => uniformMeasure (-3) 3) ∧
    ∫ x : Fin (n + 1) → ℝ, rosenbrock x ∂(Measure.pi fun _ => uniformMeasure (-3) 3)
      = 1924 * (n : ℝ) := by
  have hab : (-3 : ℝ) < 3 := by norm_num
  haveI := uniformMeasure_isProbability hab
  obtain ⟨m1, m2, m4⟩ := uniform_moments
  obtain ⟨hi, hv⟩ := integral_rosenbrock_pi (uniformMeasure (-3) 3) n
    (integrable_uniformMeasure hab _ continuous_id)
    (integrable_uniformMeasure hab _ (continuous_pow 2))
    (integrable_uniformMeasure hab _ (continuous_pow 4))
  refine ⟨hi, ?_⟩
  rw [hv, m1, m2, m4]
  ring

theorem rosenbrock_gaussian (n : Nat) :
    Integrable (fun x : Fin (n + 1) → ℝ => rosenbrock x)
      (Measure.pi fun _ : Fin (n + 1) => gaussianReal 0 4) ∧
    ∫ x : Fin (n + 1) → ℝ, rosenbrock x ∂(Measure.pi fun _ => gaussianReal 0 4)
      = 5205 * (n : ℝ) := by
  obtain ⟨m1, m2, m4⟩ := gaussian_moments
  have h1 : Integrable (fun t : ℝ => t) (gaussianReal 0 4) := by
    simpa using integrable_pow_gaussianReal 1
  obtain ⟨hi, hv⟩ := integral_rosenbrock_pi (gaussianReal 0 4) n h1
    (integrable_pow_gaussianReal 2) (integrable_pow_gaussianReal 4)
  refine ⟨hi, ?_⟩
  rw [hv, m1, m2, m4]
  ring

/-- C2, as stated, fails: for "rosengauss" at dimension 1730492649428 the code forms
`5205.0 * float64(1730492649427)`; the exact product 9007214240267535 has no binary64
value and rounds to 9007214240267536, so the returned `ev` is neither `5205 * (d - 1)` nor
the expectation of the Rosenbrock function under the returned Gaussian law. -/
theorem rosengauss_ev_rounded :
    ∃ r : RunDetails (Int × ℚ × ℚ),
      GetRunDetails (fun k lo hi => (k, lo, hi)) "rosengauss" 1730492649428 = .ok r ∧
      r.realNumDim = 1730492649428 ∧ 1 ≤ r.realNumDim ∧
      r.ev = 9007214240267536 ∧
      5205 * ((r.realNumDim : ℚ) - 1) = 9007214240267535 ∧
      r.ev ≠ 5205 * ((r.realNumDim : ℚ) - 1) ∧
      ∫ x : Fin (1730492649427 + 1) → ℝ, rosenbrock x
          ∂(r.generator.Dist.law (1730492649427 + 1)) = 9007214240267535 ∧
      ∫ x : Fin (1730492649427 + 1) → ℝ, rosenbrock x
          ∂(r.generator.Dist.law (1730492649427 + 1)) ≠ ((r.ev : ℚ) : ℝ) := by
  have hd : effectiveDim 1730492649428 = 1730492649428 := by decide
  have hk : (effectiveDim 1730492649428).toNat = 1730492649427 + 1 := by decide
  have hev : fmul 5205 (((effectiveDim 1730492649428 : Int) : ℚ) - 1) = 9007214240267536 := by
    rw [hd]
    unfold fmul
    have e : (5205 : ℚ) * (((1730492649428 : Int) : ℚ) - 1) = 9007214240267535 := by norm_num
    rw [e, roundBinary64_tie]
  have hint : ∫ x : Fin (1730492649427 + 1) → ℝ, rosenbrock x
      ∂((Distribution.independentGaussian
          (List.replicate (effectiveDim 1730492649428).toNat 0)
          (List.replicate (effectiveDim 1730492649428).toNat 2)).law (1730492649427 + 1))
      = 9007214240267535 := by
    rw [hk, law_gaussian_replicate, (rosenbrock_gaussian 1730492649427).2]
    norm_num
  refine ⟨_, GetRunDetails_rosengauss _ 1730492649428 (by decide) (by decide), hd,
    by rw [hd]; decide, hev, ?_, ?_, hint, ?_⟩
  · show (5205 : ℚ) * (((effectiveDim 1730492649428 : Int) : ℚ) - 1) = 9007214240267535
    rw [hd]
    norm_num
  · show fmul 5205 (((effectiveDim 1730492649428 : Int) : ℚ) - 1)
      ≠ 5205 * (((effectiveDim 1730492649428 : Int) : ℚ) - 1)
    rw [hev, hd]
    norm_num
  · rw [hint]
    show (9007214240267535 : ℝ)
      ≠ ((fmul 5205 (((effectiveDim 1730492649428 : Int) : ℚ) - 1) : ℚ) : ℝ)
    rw [hev]
    norm_num

/-- C2, amended. For every dimension `d = n + 1` with `1 ≤ d ≤ 2^40` the value `ev` that
`GetRunDetails` returns for a Rosenbrock case is the expectation of the standard
Rosenbrock function `Σ_{i<d-1} [100 (x_{i+1} - x_i²)² + (1 - x_i)²]` under the law of the
returned generator's distribution, and the function is integrable under that law: for
"rosenunif" and "rosenfit" the coordinates are independent uniform on `[-3, 3]` and
`ev = 1924 * (d - 1)`; for "rosengauss" they are independent Gaussian with mean 0 and
standard deviation 2 and `ev = 5205 * (d - 1)`. -/
theorem rosenbrock_true_expectation {S : Type} (SR : Int → ℚ → ℚ → S) (c : String)
    (nDimA : Int) (n : Nat)
    (hc : c = "rosenunif" ∨ c = "rosenfit" ∨ c = "rosengauss")
    (hd : effectiveDim nDimA = (n : Int) + 1)
    (hmax : (n : Int) + 1 ≤ 2 ^ 40) :
    ∃ r : RunDetails S, GetRunDetails SR c nDimA = .ok r ∧
      r.realNumDim = (n : Int) + 1 ∧
      r.generator.Function = .Rosen ∧
      Integrable (fun x : Fin (n + 1) → ℝ => rosenbrock x) (r.generator.Dist.law (n + 1)) ∧
      ∫ x : Fin (n + 1) → ℝ, rosenbrock x ∂(r.generator.Dist.law (n + 1)) = ((r.ev : ℚ) : ℝ) ∧
      ((c = "rosenunif" ∨ c = "rosenfit") →
        r.generator.Dist = .uniform (List.replicate (n + 1) (-3)) (List.replicate (n + 1) 3) ∧
        r.ev = 1924 * ((r.realNumDim : ℚ) - 1)) ∧
      (c = "rosengauss" →
        r.generator.Dist
          = .independentGaussian (List.replicate (n + 1) 0) (List.replicate (n + 1) 2) ∧
        r.ev = 5205 * ((r.realNumDim : ℚ) - 1)) := by
  have h0 : 0 ≤ effectiveDim nDimA := by omega
  have h40 : effectiveDim nDimA ≤ 2 ^ 40 := by omega
  have h45 : effectiveDim nDimA ≤ maxSliceLen := by unfold maxSliceLen; omega
  have hk : (effectiveDim nDimA).toNat = n + 1 := by omega
  have hq : ((effectiveDim nDimA : Int) : ℚ) - 1 = (n : ℚ) := by
    rw [hd]; push_cast; ring
  obtain ⟨ev1, ev2⟩ := ev_products_exact (effectiveDim nDimA) h0 h40
  have ev1n : fmul 1924 (n : ℚ) = 1924 * (n : ℚ) := by rw [← hq]; exact ev1
  have ev2n : fmul 5205 (n : ℚ) = 5205 * (n : ℚ) := by rw [← hq]; exact ev2
  rcases hc with rfl | rfl | rfl
  · refine ⟨_, GetRunDetails_rosenunif SR nDimA h0 h45, hd, rfl, ?_, ?_, ?_, ?_⟩
    · simp only [hk, law_uniform_replicate]
      exact (rosenbrock_uniform n).1
    · simp only [hk, law_uniform_replicate, hq, ev1n]
      rw [(rosenbrock_uniform n).2]
      push_cast; ring
    · intro _
      rw [hk]
      exact ⟨rfl, ev1⟩
    · intro h
      exact absurd h (by decide)
  · refine ⟨_, GetRunDetails_rosenfit SR nDimA h0 h45, hd, rfl, ?_, ?_, ?_, ?_⟩
    · simp only [hk, law_uniform_replicate]
      exact (rosenbrock_uniform n).1
    · simp only [hk, law_uniform_replicate, hq, ev1n]
      rw [(rosenbrock_uniform n).2]
      push_cast; ring
    · intro _
      rw [hk]
      exact ⟨rfl, ev1⟩
    · intro h
      exact absurd h (by decide)
  · refine ⟨_, GetRunDetails_rosengauss SR nDimA h0 h45, hd, rfl, ?_, ?_, ?_, ?_⟩
    · simp only [hk, law_gaussian_replicate]
      exact (rosenbrock_gaussian n).1
    · simp only [hk, law_gaussian_replicate, hq, ev2n]
      rw [(rosenbrock_gaussian n).2]
      push_cast; ring
    · intro h
      rcases h with h | h <;> exact absurd h (by decide)
    · intro _
      rw [hk]
      exact ⟨rfl, ev2⟩

/-- Witness for C2 amended: the default "rosenunif" run, dimension 10, expectation
`1924 * 9`. -/
theorem rosenbrock_true_expectation_witness :
    ∃ r : RunDetails (Int × ℚ × ℚ),
      GetRunDetails (fun k lo hi => (k, lo, hi)) "rosenunif" (-1) = .ok r ∧
      r.realNumDim = 10 ∧
      ∫ x : Fin (9 + 1) → ℝ, rosenbrock x ∂(r.generator.Dist.law (9 + 1)) = ((r.ev : ℚ) : ℝ) ∧
      r.ev = 1924 * ((r.realNumDim : ℚ) - 1) := by
  obtain ⟨r, h, hdim, _, _, hev, hu, _⟩ :=
    rosenbrock_true_expectation (fun k lo hi => (k, lo, hi)) "rosenunif" (-1) 9
      (Or.inl rfl) (by decide) (by decide)
  exact ⟨r, h, hdim, hev, (hu (Or.inl rfl)).2⟩

end Expectation

end StackMC
